import Mathlib

/-!
# FinForge — verification of the fraud-ring detection frontend and engine model

Shallow embedding of the FinForge repository (React frontend components in
`frontend/src/components`, plus the detection engine described by the design
document).  Frontend components are translated from the JSX sources; the
Python backend is not part of the source tree, so the engine is modelled from
the specification, with each such definition marked `Modelled from the spec:`.
-/

set_option linter.unusedVariables false

/-! ## Basic string and character utilities -/

/-- Boolean test that `n` is an initial segment of `l` (char-by-char). -/
def leadsWith : List Char → List Char → Bool
  | [], _ => true
  | _ :: _, [] => false
  | a :: as, b :: bs => a == b && leadsWith as bs

/-- Boolean test that `n` occurs contiguously inside `l`
(the semantics of JavaScript `String.prototype.includes`). -/
def seqHasSub (n : List Char) : List Char → Bool
  | [] => leadsWith n []
  | c :: cs => leadsWith n (c :: cs) || seqHasSub n cs

/-- JavaScript `String.includes`, on Lean strings. -/
def strIncludes (needle s : String) : Bool :=
  seqHasSub needle.toList s.toList

/-- The proposition that `needle` occurs contiguously inside `s`. -/
def SubStrOf (needle s : String) : Prop :=
  ∃ pre post, s.toList = pre ++ needle.toList ++ post

/-! ## AccountsTable (`AccountsTable.module.css` importer, source part_001)

Translated from the source:

    const TAG_CLASS = (p) => {
      if (p.includes('cycle')) return styles.tagCycle
      if (p.includes('fan') || p.includes('velocity') || p.includes('smurf')) return styles.tagSmurf
      return styles.tagShell
    }
-/

/-- The three CSS classes `TAG_CLASS` can select. -/
inductive TagStyle where
  | tagCycle
  | tagSmurf
  | tagShell
deriving DecidableEq, Repr

/-- The `TAG_CLASS` selector from `AccountsTable.jsx`. -/
def tagClass (p : String) : TagStyle :=
  if strIncludes "cycle" p then .tagCycle
  else if strIncludes "fan" p || strIncludes "velocity" p || strIncludes "smurf" p then .tagSmurf
  else .tagShell

/-- A row of the `suspicious_accounts` report list, as consumed by the frontend. -/
structure AccountOut where
  account_id : String
  suspicion_score : ℤ
  ring_id : Option String
  detected_patterns : List String
deriving DecidableEq, Repr

/-- The rows rendered by `AccountsTable`: the component returns `null` when the
account list is absent (`!accounts`) or empty, and otherwise maps a row over
`accounts.slice(0, 100)` in list order. -/
def accountsTableRows : Option (List AccountOut) → List AccountOut
  | none => []
  | some l => if l.length = 0 then [] else l.take 100

/-! ## StatsStrip (`StatsStrip.jsx`) -/

/-- The `summary` object of the report.  A JavaScript object may carry fields
beyond the seven contract fields; `extraFields` models those. -/
structure SummaryOut where
  total_accounts_analyzed : ℕ
  total_transactions : ℕ
  suspicious_accounts_flagged : ℕ
  fraud_rings_detected : ℕ
  cycles_found : ℕ
  smurfing_hubs_found : ℕ
  processing_time_seconds : ℚ
  extraFields : List (String × String)
deriving DecidableEq, Repr

/-- One card of the stats strip. -/
structure StatCard where
  label : String
  value : String
  sub : String
  accent : String
deriving DecidableEq, Repr

/-- Digit characters (most significant first) of a natural number. -/
def natDigitChars (n : ℕ) : List Char :=
  if n = 0 then [Char.ofNat 48] else ((Nat.digits 10 n).map Nat.digitChar).reverse

/-- Insert a comma after every three characters of a little-endian digit list. -/
def groupRev : List Char → List Char
  | c1 :: c2 :: c3 :: c4 :: rest => c1 :: c2 :: c3 :: Char.ofNat 44 :: groupRev (c4 :: rest)
  | l => l

/-- JavaScript `Number.prototype.toLocaleString` (default en-US grouping) on naturals. -/
def toLocaleStr (n : ℕ) : String :=
  String.mk (groupRev (natDigitChars n).reverse).reverse

/-- Decimal rendering of a natural number (JS template-literal interpolation). -/
def natStr (n : ℕ) : String := String.mk (natDigitChars n)

/-- Rendering of the `processing_time_seconds` number in the fourth card. -/
def timeStr (q : ℚ) : String := toString q

/-- The `cards` array built by `StatsStrip` from the summary, line for line. -/
def statsStrip (s : SummaryOut) : List StatCard :=
  [ { label := "Total Accounts", value := toLocaleStr s.total_accounts_analyzed,
      sub := natStr s.total_transactions ++ " transactions", accent := "ok" },
    { label := "Suspicious Accounts", value := natStr s.suspicious_accounts_flagged,
      sub := "Flagged by algorithms", accent := "warn" },
    { label := "Fraud Rings Detected", value := natStr s.fraud_rings_detected,
      sub := natStr s.cycles_found ++ " cycles · " ++ natStr s.smurfing_hubs_found
        ++ " smurfing hubs", accent := "danger" },
    { label := "Processing Time", value := timeStr s.processing_time_seconds ++ "s",
      sub := "Graph traversal complete", accent := "default" } ]

/-! ## RingPanel (source concatenated in Header.jsx file)

`const sorted = [...rings].sort((a, b) => b.risk_score - a.risk_score)`

`Array.prototype.sort` is stable (ECMAScript 2019+); with the comparator above
it orders by descending `risk_score` and keeps ties in input order.  A stable
sort for a total transitive comparator has a unique result, so insertion sort
is a faithful model. -/

/-- A ring of the `fraud_rings` report list, as consumed by the frontend. -/
structure RingOut where
  ring_id : String
  pattern_type : String
  member_accounts : List String
  risk_score : ℚ
deriving DecidableEq, Repr

/-- The ordering used by `RingPanel`: `a` may precede `b` iff `b.risk_score ≤ a.risk_score`. -/
def ringPanelLe (a b : RingOut) : Prop := b.risk_score ≤ a.risk_score

instance : DecidableRel ringPanelLe :=
  fun a b => inferInstanceAs (Decidable (b.risk_score ≤ a.risk_score))

instance : IsTrans RingOut ringPanelLe :=
  ⟨fun _ _ _ h1 h2 => le_trans h2 h1⟩

instance : IsTotal RingOut ringPanelLe :=
  ⟨fun a b => (le_total b.risk_score a.risk_score).imp id id⟩

/-- The `sorted` list displayed by `RingPanel`. -/
def ringPanelSorted (rings : List RingOut) : List RingOut :=
  List.insertionSort ringPanelLe rings

/-! ## GraphPanel (source concatenated in UploadZone.jsx file)

Edge-layer split.  `suspiciousMap` is keyed by `account_id` of the
`suspicious_accounts` list; an edge goes to the fraud layer iff either
endpoint id is a key, to the normal layer iff neither is. -/

/-- An edge of the graph payload (endpoints by account id). -/
structure EdgeOut where
  source : String
  target : String
deriving DecidableEq, Repr

/-- The `suspiciousMap.has` test on an endpoint id. -/
def suspHas (susp : List AccountOut) (x : String) : Bool :=
  (susp.map (fun a => a.account_id)).contains x

/-- The `normalEdges` filter from `GraphPanel`. -/
def normalEdges (susp : List AccountOut) (edges : List EdgeOut) : List EdgeOut :=
  edges.filter (fun e => !suspHas susp e.source && !suspHas susp e.target)

/-- The `fraudEdges` filter from `GraphPanel`. -/
def fraudEdges (susp : List AccountOut) (edges : List EdgeOut) : List EdgeOut :=
  edges.filter (fun e => suspHas susp e.source || suspHas susp e.target)

/-! ## Detection engine data model

The Python backend (`backend/main.py`) is not part of the source tree — only
its callers and the design document are.  Every definition below is therefore
*Modelled from the spec:* §3–§4 of the design document, faithful to its words.
-/

/-- Modelled from the spec: an input transaction (§3); timestamps as epoch
seconds, amounts as rationals. -/
structure Txn where
  transaction_id : String
  sender_id : String
  receiver_id : String
  amount : ℚ
  timestamp : ℤ
deriving DecidableEq, Repr

/-- Transactions sent by `a`. -/
def txOutgoing (txs : List Txn) (a : String) : List Txn :=
  txs.filter (fun t => t.sender_id == a)

/-- Transactions received by `a`. -/
def txIncoming (txs : List Txn) (a : String) : List Txn :=
  txs.filter (fun t => t.receiver_id == a)

/-- Modelled from the spec: `node_stats.tx_in` (§3). -/
def txInCount (txs : List Txn) (a : String) : ℕ := (txIncoming txs a).length

/-- Modelled from the spec: `node_stats.tx_out` (§3). -/
def txOutCount (txs : List Txn) (a : String) : ℕ := (txOutgoing txs a).length

/-- Modelled from the spec: `node_stats.total_in` (§3). -/
def totalIn (txs : List Txn) (a : String) : ℚ := ((txIncoming txs a).map (·.amount)).sum

/-- Modelled from the spec: `node_stats.total_out` (§3). -/
def totalOut (txs : List Txn) (a : String) : ℚ := ((txOutgoing txs a).map (·.amount)).sum

/-- Total degree `tx_in + tx_out` of an account. -/
def txTotal (txs : List Txn) (a : String) : ℕ := txInCount txs a + txOutCount txs a

/-- Timestamps of all transactions touching `a`, in ingest order (§3). -/
def touchTimestamps (txs : List Txn) (a : String) : List ℤ :=
  ((txs.filter (fun t => t.sender_id == a || t.receiver_id == a)).map (·.timestamp))

/-- The merged, ascending-sorted timestamps used by window computations (§4.4). -/
def sortedTimestamps (txs : List Txn) (a : String) : List ℤ :=
  List.insertionSort (· ≤ ·) (touchTimestamps txs a)

/-- Modelled from the spec: the account universe in the stable detector
order — account id ascending (§5). -/
def accountsOf (txs : List Txn) : List String :=
  List.insertionSort (· ≤ ·) ((txs.map (·.sender_id) ++ txs.map (·.receiver_id)).dedup)

/-- Unique senders into `a`. -/
def uniqueSenders (txs : List Txn) (a : String) : List String :=
  ((txIncoming txs a).map (·.sender_id)).dedup

/-- Unique receivers out of `a`. -/
def uniqueReceivers (txs : List Txn) (a : String) : List String :=
  ((txOutgoing txs a).map (·.receiver_id)).dedup

/-- Outgoing partner set of `a` in ascending id order (deterministic traversal). -/
def adjSorted (txs : List Txn) (a : String) : List String :=
  List.insertionSort (· ≤ ·) (uniqueReceivers txs a)

/-- The ε guard of the payroll-conduit rule (§4.2). -/
def epsQ : ℚ := 1 / 1000000000

/-- Modelled from the spec: the Legitimacy Filter (§4.2) — high-volume
merchant, payroll disburser, payroll conduit. -/
def isLegitimate (txs : List Txn) (a : String) : Bool :=
  let din := txInCount txs a
  let dout := txOutCount txs a
  let vin := totalIn txs a
  let vout := totalOut txs a
  (decide (12 ≤ din) && decide (dout ≤ 5) && decide (2 * vout < vin))
  || (decide (15 ≤ dout) && decide (din ≤ 3))
  || (decide (din ≤ 3) && decide (15 ≤ dout) && decide (|vin - vout| / max vin epsQ < 15 / 100))

/-! ### Cycle detector (§4.3) -/

/-- Modelled from the spec: canonical-order DFS from start `s` (§4.3).  A
neighbour is traversed only if it is greater than `s`, not already on the
path, not legitimate, and the path has fewer than 5 members; a cycle is
recorded when the walk is about to revisit `s` at path length 3–5.  `path`
is kept reversed; the depth bound 5 makes 6 fuel sufficient. -/
def cycleDFS (txs : List Txn) (s : String) : ℕ → String → List String → List (List String)
  | 0, _, _ => []
  | fuel + 1, u, path =>
    (adjSorted txs u).flatMap fun n =>
      if n = s then
        if 3 ≤ path.length ∧ path.length ≤ 5 then [path.reverse] else []
      else if s < n ∧ ¬ path.contains n = true ∧ isLegitimate txs n = false ∧ path.length < 5 then
        cycleDFS txs s fuel n (n :: path)
      else []

/-- Modelled from the spec: all accepted cycles, first 500 in enumeration
order (the hard cap of §4.3); starts are non-legitimate accounts in
ascending order, so enumeration is deterministic. -/
def allCycleMembers (txs : List Txn) : List (List String) :=
  (((accountsOf txs).filter (fun a => !isLegitimate txs a)).flatMap
    (fun s => cycleDFS txs s 6 s [s])).take 500

/-- The hops of a cycle `m₀ → m₁ → … → m₀` as ordered pairs. -/
def cycleHops (m : List String) : List (String × String) := m.zip (m.rotate 1)

/-- All parallel transfers from `u` to `v`. -/
def hopTxns (txs : List Txn) (u v : String) : List Txn :=
  txs.filter (fun t => t.sender_id == u && t.receiver_id == v)

/-- Earliest timestamp among parallel transfers (temporal analysis, §9). -/
def earliestTs (l : List Txn) : ℤ :=
  match l with
  | [] => 0
  | t :: ts => ts.foldl (fun a t' => min a t'.timestamp) t.timestamp

/-- Largest amount among parallel transfers (decay analysis, §9). -/
def largestAmt (l : List Txn) : ℚ :=
  match l with
  | [] => 0
  | t :: ts => ts.foldl (fun a t' => max a t'.amount) t.amount

/-- Modelled from the spec: `CycleHit` (§3). -/
structure CycleHit where
  members : List String
  amounts : List ℚ
  timestamps : List ℤ
deriving DecidableEq, Repr

/-- Build the `CycleHit` for a member cycle: per-hop largest amount and
earliest timestamp (§4.3, §9). -/
def mkCycleHit (txs : List Txn) (m : List String) : CycleHit :=
  { members := m,
    amounts := (cycleHops m).map (fun p => largestAmt (hopTxns txs p.1 p.2)),
    timestamps := (cycleHops m).map (fun p => earliestTs (hopTxns txs p.1 p.2)) }

/-- All cycle hits of the run. -/
def cycleHits (txs : List Txn) : List CycleHit :=
  (allCycleMembers txs).map (mkCycleHit txs)

/-! ### Smurfing detector (§4.4) -/

/-- Fan role of a smurfing hub. -/
inductive FanRole where
  | fanIn
  | fanOut
deriving DecidableEq, Repr

/-- Modelled from the spec: `SmurfingHit` (§3). -/
structure SmurfHit where
  hub : String
  role : FanRole
  partners : List String
  max_window_count : ℕ
deriving DecidableEq, Repr

/-- 72 hours in seconds. -/
def hour72 : ℤ := 259200

/-- 24 hours in seconds. -/
def hour24 : ℤ := 86400

/-- One week in seconds. -/
def weekSecs : ℤ := 604800

/-- Modelled from the spec: the largest number of transactions inside any
contiguous window of width `w` (§4.4).  For ascending-sorted timestamps this
equals the two-pointer sliding-window maximum: an optimal window can always
be closed at some element, and the count in `[t − w, t]` is then the
two-pointer count at the last index carrying `t`. -/
def maxWindowCount (ts : List ℤ) (w : ℤ) : ℕ :=
  (ts.map (fun t => (ts.filter (fun u => decide (t - w ≤ u) && decide (u ≤ t))).length)).foldr max 0

/-- Modelled from the spec: fan-in / fan-out hits over non-legitimate
accounts (§4.4), thresholds at 10 unique partners. -/
def smurfHits (txs : List Txn) : List SmurfHit :=
  ((accountsOf txs).filter (fun a => !isLegitimate txs a)).flatMap fun a =>
    let r := uniqueSenders txs a
    let t := uniqueReceivers txs a
    let w := maxWindowCount (sortedTimestamps txs a) hour72
    (if 10 ≤ r.length then [⟨a, .fanIn, r, w⟩] else [])
    ++ (if 10 ≤ t.length then [⟨a, .fanOut, t, w⟩] else [])

/-! ### Shell detector (§4.5) -/

/-- Every interior account of the path has at most 3 total transactions. -/
def interiorOk (txs : List Txn) (p : List String) : Bool :=
  ((p.drop 1).dropLast).all (fun a => decide (txTotal txs a ≤ 3))

/-- Modelled from the spec: budgeted BFS chain enumeration (§4.5).  Each
dequeue is one frontier expansion against the 50 000-step budget; paths are
extended by unvisited non-legitimate successors; a chain is accepted at
3–6 hops (path length 4–7) when its interior is all-shell; only paths of at
most 6 hops stay on the queue for further extension. -/
def shellBFS (txs : List Txn) : ℕ → List (List String) → List (List String)
  | 0, _ => []
  | _ + 1, [] => []
  | fuel + 1, path :: queue =>
    let u := path.getLastD ""
    let exts := (adjSorted txs u).filter (fun n => !path.contains n && !isLegitimate txs n)
    let newPaths := exts.map (fun n => path ++ [n])
    let accepted := newPaths.filter (fun p => decide (4 ≤ p.length) && interiorOk txs p)
    accepted ++ shellBFS txs fuel (queue ++ newPaths.filter (fun p => decide (p.length ≤ 6)))

/-- Modelled from the spec: the accepted shell chains of the run. -/
def shellChains (txs : List Txn) : List (List String) :=
  shellBFS txs 50000 (((accountsOf txs).filter (fun a => !isLegitimate txs a)).map (fun a => [a]))

/-- Accounts that belong to at least one shell chain, in ascending id order. -/
def shellAccounts (txs : List Txn) : List String :=
  (accountsOf txs).filter (fun a => (shellChains txs).any (fun p => p.contains a))

/-! ### Ring consolidator and scorer (§4.6) -/

/-- Clamp a score to `[0, 100]` (§4.6). -/
def clampScore (x : ℚ) : ℚ := max 0 (min 100 x)

/-- Modelled from the spec: the diminishing-returns update
`s' = s + c · (1 − s/120)` clamped to `[0, 100]` (§4.6). -/
def applyContribution (s c : ℚ) : ℚ := clampScore (s + c * (1 - s / 120))

/-- Modelled from the spec: emitted per-account scores are integers,
rounded (§3). -/
def emitScore (s : ℚ) : ℤ := round s

/-- Base contribution of a cycle by length: 85 / 80 / 75 (§4.6). -/
def cycleBase (len : ℕ) : ℚ := if len = 3 then 85 else if len = 4 then 80 else 75

/-- The pattern tag of a cycle by length. -/
def cycleLenTag (len : ℕ) : String :=
  if len = 3 then "cycle_length_3" else if len = 4 then "cycle_length_4" else "cycle_length_5"

/-- All timestamps fall inside one window of width `w`. -/
def withinSpan (ts : List ℤ) (w : ℤ) : Bool :=
  match ts with
  | [] => true
  | t :: tr => decide (tr.foldl max t - tr.foldl min t ≤ w)

/-- Modelled from the spec: amount decay — every successive amount quotient
lies in `[0.65, 0.98]` (§4.6), stated multiplicatively (amounts are positive
by the input contract). -/
def decayOk (amts : List ℚ) : Bool :=
  (amts.zip (amts.drop 1)).all
    (fun p => decide (65 / 100 * p.1 ≤ p.2) && decide (p.2 ≤ 98 / 100 * p.1))

/-- Per-member contribution of one cycle hit: base plus the 72-hour bonus
(+8), else the one-week bonus (+4), plus the decay bonus (+6) (§4.6). -/
def cycleContribution (h : CycleHit) : ℚ :=
  cycleBase h.members.length
  + (if withinSpan h.timestamps hour72 then 8
     else if withinSpan h.timestamps weekSecs then 4 else 0)
  + (if decayOk h.amounts then 6 else 0)

/-- The tags one cycle hit appends to each member. -/
def cycleHitTags (h : CycleHit) : List String :=
  [cycleLenTag h.members.length]
  ++ (if withinSpan h.timestamps hour72 then ["temporal_burst_72h"]
      else if withinSpan h.timestamps weekSecs then ["temporal_burst_week"] else [])
  ++ (if decayOk h.amounts then ["amount_decay"] else [])

/-- Hub contribution `min (100, 40 + (P − 10)·3 + W·2)` (§4.6). -/
def hubContribution (p w : ℕ) : ℚ := min 100 (40 + ((p : ℚ) - 10) * 3 + (w : ℚ) * 2)

/-- Hub tag by role. -/
def roleTag : FanRole → String
  | .fanIn => "fan_in_hub"
  | .fanOut => "fan_out_hub"

/-- Peripheral tag by role. -/
def periTag : FanRole → String
  | .fanIn => "fan_in_contributor"
  | .fanOut => "fan_out_receiver"

/-- The distinct smurfing hubs, in hit order. -/
def smurfHubs (txs : List Txn) : List String :=
  ((smurfHits txs).map (·.hub)).eraseDups

/-- Modelled from the spec: high-velocity contributions `W · 1.5` for hubs
with `W ≥ 6` transactions in some 24-hour window (§4.6), one per hub. -/
def velocityContribs (txs : List Txn) : List (String × ℚ) :=
  (smurfHubs txs).flatMap fun a =>
    let w := maxWindowCount (sortedTimestamps txs a) hour24
    if 6 ≤ w then [(a, (w : ℚ) * 3 / 2)] else []

/-- Shell chains through a given account. -/
def chainsThrough (chains : List (List String)) (a : String) : List (List String) :=
  chains.filter (fun p => p.contains a)

/-- Modelled from the spec: shell-member contribution
`0.5 · (55 + 10·C + 2·H)` where `C` counts the chains through the node and
`H` is the hop count (taken as the largest among its chains) (§4.6). -/
def shellContribution (chains : List (List String)) (a : String) : ℚ :=
  let thr := chainsThrough chains a
  (55 + 10 * (thr.length : ℚ) + 2 * ((thr.map (fun p => p.length - 1)).foldr max 0 : ℕ)) / 2

/-- Modelled from the spec: peripheral contributions — each non-legitimate
partner of a hub receives `0.3 · hub_score` (§4.6). -/
def peripheralContribs (txs : List Txn) : List (String × ℚ) :=
  (smurfHits txs).flatMap fun h =>
    (h.partners.filter (fun p => !isLegitimate txs p)).map
      (fun p => (p, 3 / 10 * hubContribution h.partners.length h.max_window_count))

/-- Modelled from the spec: the full contribution stream in its deterministic
order — cycle contributions first, then fan/velocity, then shell, then
peripheral (§4.6). -/
def scoreContribs (txs : List Txn) : List (String × ℚ) :=
  ((cycleHits txs).flatMap (fun h => h.members.map (fun a => (a, cycleContribution h))))
  ++ ((smurfHits txs).map (fun h => (h.hub, hubContribution h.partners.length h.max_window_count)))
  ++ velocityContribs txs
  ++ ((shellAccounts txs).map (fun a => (a, shellContribution (shellChains txs) a)))
  ++ peripheralContribs txs

/-- Modelled from the spec: the suspicion score of an account — its
contributions applied in order through the diminishing-returns update,
starting from 0 (§4.6). -/
def accountScore (txs : List Txn) (a : String) : ℚ :=
  ((scoreContribs txs).filter (fun c => c.1 == a)).foldl (fun s c => applyContribution s c.2) 0

/-- The tag stream mirroring `scoreContribs` (§4.6 pattern tagging). -/
def tagEvents (txs : List Txn) : List (String × String) :=
  ((cycleHits txs).flatMap (fun h => h.members.flatMap (fun a => (cycleHitTags h).map (fun t => (a, t)))))
  ++ ((smurfHits txs).map (fun h => (h.hub, roleTag h.role)))
  ++ ((velocityContribs txs).map (fun c => (c.1, "high_velocity")))
  ++ ((shellAccounts txs).map (fun a => (a, "shell_chain_member")))
  ++ ((smurfHits txs).flatMap fun h =>
       (h.partners.filter (fun p => !isLegitimate txs p)).map (fun p => (p, periTag h.role)))

/-- The `detected_patterns` of an account: its tags in first-appended order,
without duplicates (tags are a set, §4.6). -/
def accountTags (txs : List Txn) (a : String) : List String :=
  (((tagEvents txs).filter (fun e => e.1 == a)).map (·.2)).eraseDups

/-! ### Ring assembly, deduplication, identifiers (§4.6) -/

/-- The three ring pattern types. -/
inductive PatternType where
  | cycle
  | smurfing
  | shell_network
deriving DecidableEq, Repr

/-- A candidate ring before deduplication. -/
structure RingC where
  pattern : PatternType
  members : List String
  risk : ℚ
deriving DecidableEq, Repr

/-- Modelled from the spec: the risk score of a ring is the maximum member
suspicion score (§4.6); scores are non-negative, so `foldr max 0` is that
maximum. -/
def ringRisk (txs : List Txn) (members : List String) : ℚ :=
  (members.map (accountScore txs)).foldr max 0

/-- Modelled from the spec: the candidate rings in construction order — one
per cycle hit, one per smurfing hit (hub only), one per shell chain (§4.6). -/
def candidateRings (txs : List Txn) : List RingC :=
  ((allCycleMembers txs).map (fun m => ⟨.cycle, m, ringRisk txs m⟩))
  ++ ((smurfHits txs).map (fun h => ⟨.smurfing, [h.hub], ringRisk txs [h.hub]⟩))
  ++ ((shellChains txs).map (fun p => ⟨.shell_network, p, ringRisk txs p⟩))

/-- The member set of a candidate ring. -/
def memberSet (r : RingC) : Finset String := r.members.toFinset

/-- Distinct-member count of a candidate ring. -/
def mcard (r : RingC) : ℕ := (memberSet r).card

/-- Shared distinct members of two rings. -/
def interCard (a b : RingC) : ℕ := (memberSet a ∩ memberSet b).card

/-- Modelled from the spec: overlap `|A ∩ B| / min (|A|, |B|)` (§4.6). -/
def overlapQ (a b : RingC) : ℚ := (interCard a b : ℚ) / (min (mcard a) (mcard b) : ℚ)

/-- Priority between indexed candidate rings: higher score wins; ties fall to
the larger member count, then to the earlier construction index (§4.6, §9). -/
def beats (x y : ℕ × RingC) : Prop :=
  y.2.risk < x.2.risk
  ∨ (x.2.risk = y.2.risk
     ∧ (mcard y.2 < mcard x.2 ∨ (mcard x.2 = mcard y.2 ∧ x.1 < y.1)))

instance (x y : ℕ × RingC) : Decidable (beats x y) :=
  inferInstanceAs (Decidable (_ ∨ _))

/-- Modelled from the spec: a candidate is dropped when some other candidate
of the same pattern type overlaps it by more than 0.85 and beats it (§4.6,
pairwise comparison). -/
def droppedBy (cs : List (ℕ × RingC)) (y : ℕ × RingC) : Prop :=
  ∃ x ∈ cs, x.1 ≠ y.1 ∧ x.2.pattern = y.2.pattern ∧ (85 / 100 : ℚ) < overlapQ x.2 y.2 ∧ beats x y

instance (cs : List (ℕ × RingC)) (y : ℕ × RingC) : Decidable (droppedBy cs y) :=
  List.decidableBEx _ cs

/-- The indexed candidates that survive deduplication. -/
def survivorsIdx (cs : List RingC) : List (ℕ × RingC) :=
  cs.enum.filter (fun y => !decide (droppedBy cs.enum y))

/-- Modelled from the spec: member-overlap deduplication (§4.6). -/
def dedupRings (cs : List RingC) : List RingC := (survivorsIdx cs).map (·.2)

/-- The smallest member id of a ring (the dedup/renumber tiebreak, §4.6). -/
def smallestMember (r : RingC) : String :=
  match r.members with
  | [] => ""
  | m :: ms => ms.foldl min m

/-- Ring emission order: descending risk score, ties by ascending smallest
member id (§4.6). -/
def ringLe (a b : RingC) : Prop :=
  b.risk < a.risk ∨ (a.risk = b.risk ∧ smallestMember a ≤ smallestMember b)

instance : DecidableRel ringLe :=
  fun a b => inferInstanceAs (Decidable (_ ∨ _))

instance : IsTrans RingC ringLe := by
  constructor
  intro a b c hab hbc
  rcases hab with h1 | ⟨e1, s1⟩
  · rcases hbc with h2 | ⟨e2, s2⟩
    · exact Or.inl (lt_trans h2 h1)
    · exact Or.inl (e2 ▸ h1)
  · rcases hbc with h2 | ⟨e2, s2⟩
    · exact Or.inl (e1 ▸ h2)
    · exact Or.inr ⟨e1.trans e2, le_trans s1 s2⟩

instance : IsTotal RingC ringLe := by
  constructor
  intro a b
  rcases lt_trichotomy a.risk b.risk with h | h | h
  · exact Or.inr (Or.inl h)
  · rcases le_total (smallestMember a) (smallestMember b) with hs | hs
    · exact Or.inl (Or.inr ⟨h, hs⟩)
    · exact Or.inr (Or.inr ⟨h.symm, hs⟩)
  · exact Or.inl (Or.inl h)

/-- An emitted ring of the report. -/
structure RingE where
  ring_id : String
  pattern_type : PatternType
  member_accounts : List String
  risk_score : ℚ
deriving DecidableEq, Repr

/-- Zero-padded three-digit rendering (the `R###` ids, §3). -/
def pad3 (n : ℕ) : String :=
  (if n < 10 then "00" else if n < 100 then "0" else "") ++ natStr n

/-- Ring identifier `R###`. -/
def ringIdStr (n : ℕ) : String := "R" ++ pad3 n

/-- Emit one ring under a given one-based position. -/
def mkRingE (i : ℕ) (r : RingC) : RingE :=
  ⟨ringIdStr i, r.pattern, r.members, r.risk⟩

/-- Assign consecutive identifiers starting at `n`. -/
def assignIds : ℕ → List RingC → List RingE
  | _, [] => []
  | n, r :: rs => mkRingE n r :: assignIds (n + 1) rs

/-- Modelled from the spec: surviving rings are sorted by descending risk
(ties by ascending smallest member id) and renumbered `R001, R002, …` (§4.6). -/
def renumberRings (rs : List RingC) : List RingE :=
  assignIds 1 (List.insertionSort ringLe rs)

/-- The `fraud_rings` list of the report, in ring-id order. -/
def fraudRingsOf (txs : List Txn) : List RingE :=
  renumberRings (dedupRings (candidateRings txs))

/-- Modelled from the spec: the ring id emitted on an account is the ring of
its highest-scoring membership (§4.6) — the first ring containing it in the
renumbered (descending-risk) order. -/
def accountRingId (txs : List Txn) (a : String) : Option String :=
  ((fraudRingsOf txs).find? (fun r => r.member_accounts.contains a)).map (·.ring_id)

/-- The flagged accounts: accounts that received a positive score, in
ascending id order (legitimate accounts receive no contributions except as
excluded peripherals, so none is flagged). -/
def flaggedAccounts (txs : List Txn) : List String :=
  (accountsOf txs).filter (fun a => decide (0 < accountScore txs a))

/-- The `suspicious_accounts` order: descending emitted score, ties by ascending
account id (§6). -/
def suspLe (x y : AccountOut) : Prop :=
  y.suspicion_score < x.suspicion_score
  ∨ (x.suspicion_score = y.suspicion_score ∧ x.account_id ≤ y.account_id)

instance : DecidableRel suspLe :=
  fun x y => inferInstanceAs (Decidable (_ ∨ _))

instance : IsTrans AccountOut suspLe := by
  constructor
  intro a b c hab hbc
  rcases hab with h1 | ⟨e1, s1⟩
  · rcases hbc with h2 | ⟨e2, s2⟩
    · exact Or.inl (lt_trans h2 h1)
    · exact Or.inl (e2 ▸ h1)
  · rcases hbc with h2 | ⟨e2, s2⟩
    · exact Or.inl (e1 ▸ h2)
    · exact Or.inr ⟨e1.trans e2, le_trans s1 s2⟩

instance : IsTotal AccountOut suspLe := by
  constructor
  intro a b
  rcases lt_trichotomy a.suspicion_score b.suspicion_score with h | h | h
  · exact Or.inr (Or.inl h)
  · rcases le_total a.account_id b.account_id with hs | hs
    · exact Or.inl (Or.inr ⟨h, hs⟩)
    · exact Or.inr (Or.inr ⟨h.symm, hs⟩)
  · exact Or.inl (Or.inl h)

/-- The `suspicious_accounts` list of the report (§6). -/
def suspiciousAccountsOf (txs : List Txn) : List AccountOut :=
  List.insertionSort suspLe ((flaggedAccounts txs).map
    (fun a => ⟨a, emitScore (accountScore txs a), accountRingId txs a, accountTags txs a⟩))

/-! ### Graph payload builder (§4.7) -/

/-- A node of the graph payload. -/
structure NodeOut where
  id : String
  tx_in : ℕ
  tx_out : ℕ
  total_in : ℚ
  total_out : ℚ
  suspicious : Bool
deriving DecidableEq, Repr

/-- Fill order for non-suspicious nodes: descending total degree, ties by
ascending id (§4.7); elements carry their degree. -/
def degPairLe (x y : String × ℕ) : Prop :=
  y.2 < x.2 ∨ (x.2 = y.2 ∧ x.1 ≤ y.1)

instance : DecidableRel degPairLe :=
  fun x y => inferInstanceAs (Decidable (_ ∨ _))

instance : IsTrans (String × ℕ) degPairLe := by
  constructor
  intro a b c hab hbc
  rcases hab with h1 | ⟨e1, s1⟩
  · rcases hbc with h2 | ⟨e2, s2⟩
    · exact Or.inl (lt_trans h2 h1)
    · exact Or.inl (e2 ▸ h1)
  · rcases hbc with h2 | ⟨e2, s2⟩
    · exact Or.inl (e1 ▸ h2)
    · exact Or.inr ⟨e1.trans e2, le_trans s1 s2⟩

instance : IsTotal (String × ℕ) degPairLe := by
  constructor
  intro a b
  rcases lt_trichotomy a.2 b.2 with h | h | h
  · exact Or.inr (Or.inl h)
  · rcases le_total a.1 b.1 with hs | hs
    · exact Or.inl (Or.inr ⟨h, hs⟩)
    · exact Or.inr (Or.inr ⟨h.symm, hs⟩)
  · exact Or.inl (Or.inl h)

/-- Modelled from the spec: the included payload accounts — all suspicious
accounts, then non-suspicious accounts by descending total degree (ties by
ascending id) up to the hard cap of 800 nodes (§4.7). -/
def payloadAccounts (txs : List Txn) : List String :=
  let susp := flaggedAccounts txs
  let others := (accountsOf txs).filter (fun a => !susp.contains a)
  let sortedOthers :=
    (List.insertionSort degPairLe (others.map (fun a => (a, txTotal txs a)))).map (·.1)
  susp ++ sortedOthers.take (800 - susp.length)

/-- A payload node with its statistics and suspicious flag (§4.7). -/
def mkNode (txs : List Txn) (susp : List String) (a : String) : NodeOut :=
  ⟨a, txInCount txs a, txOutCount txs a, totalIn txs a, totalOut txs a, susp.contains a⟩

/-- The graph payload of the report. -/
structure PayloadOut where
  nodes : List NodeOut
  edges : List EdgeOut
deriving DecidableEq, Repr

/-- Modelled from the spec: the payload — included nodes with statistics;
an edge per transfer whose endpoints are both included (§4.7). -/
def payloadOf (txs : List Txn) : PayloadOut :=
  let incl := payloadAccounts txs
  ⟨incl.map (mkNode txs (flaggedAccounts txs)),
   (txs.filter (fun t => incl.contains t.sender_id && incl.contains t.receiver_id)).map
     (fun t => ⟨t.sender_id, t.receiver_id⟩)⟩

/-! ### The report (§6) -/

/-- Everything in the report except `processing_time_seconds`. -/
structure ReportCore where
  total_accounts_analyzed : ℕ
  total_transactions : ℕ
  suspicious_accounts_flagged : ℕ
  fraud_rings_detected : ℕ
  cycles_found : ℕ
  smurfing_hubs_found : ℕ
  suspicious_accounts : List AccountOut
  fraud_rings : List RingE
  graph : PayloadOut
deriving DecidableEq, Repr

/-- Modelled from the spec: the deterministic part of one pipeline run —
a pure function of the transaction list (§5, §6). -/
def analyzeCore (txs : List Txn) : ReportCore :=
  { total_accounts_analyzed := (accountsOf txs).length
    total_transactions := txs.length
    suspicious_accounts_flagged := (flaggedAccounts txs).length
    fraud_rings_detected := (fraudRingsOf txs).length
    cycles_found := (cycleHits txs).length
    smurfing_hubs_found := (smurfHubs txs).length
    suspicious_accounts := suspiciousAccountsOf txs
    fraud_rings := fraudRingsOf txs
    graph := payloadOf txs }

/-- The full report: the deterministic core plus the wall-clock field. -/
structure Report where
  core : ReportCore
  processing_time_seconds : ℚ
deriving DecidableEq, Repr

/-- Modelled from the spec: one pipeline invocation; `elapsed` is the
measured wall-clock duration, the only input besides the transactions (§5). -/
def runPipeline (txs : List Txn) (elapsed : ℚ) : Report :=
  ⟨analyzeCore txs, elapsed⟩

/-- A report with `processing_time_seconds` erased. -/
def stripTime (r : Report) : ReportCore := r.core

/-! ## DownloadBar (source part_000): JSON serialisation

`downloadJSON` exports `JSON.stringify(result, null, 2)`.  The JSON value
space is modelled by `Json`; numbers are finite decimals `m · 10⁻ᵉ` (the form
`JSON.stringify` prints for report values); `jsonParseStr` models
`JSON.parse` on such documents. -/

/-- Named characters (by code point). -/
def quoteC : Char := Char.ofNat 34

/-- Backslash. -/
def bslashC : Char := Char.ofNat 92

/-- Newline. -/
def nlC : Char := Char.ofNat 10

/-- Horizontal tab. -/
def tabC : Char := Char.ofNat 9

/-- Carriage return. -/
def crC : Char := Char.ofNat 13

/-- Backspace. -/
def bspC : Char := Char.ofNat 8

/-- Form feed. -/
def ffC : Char := Char.ofNat 12

/-- Space. -/
def spaceC : Char := Char.ofNat 32

/-- Comma. -/
def commaC : Char := Char.ofNat 44

/-- Colon. -/
def colonC : Char := Char.ofNat 58

/-- Opening square bracket. -/
def lbrackC : Char := Char.ofNat 91

/-- Closing square bracket. -/
def rbrackC : Char := Char.ofNat 93

/-- Opening curly bracket. -/
def lcurlC : Char := Char.ofNat 123

/-- Closing curly bracket. -/
def rcurlC : Char := Char.ofNat 125

/-- Decimal point. -/
def dotC : Char := Char.ofNat 46

/-- Minus sign. -/
def minusC : Char := Char.ofNat 45

/-- The characters of the literal `null`. -/
def nullLit : List Char := ['n', 'u', 'l', 'l']

/-- The characters of the literal `true`. -/
def trueLit : List Char := ['t', 'r', 'u', 'e']

/-- The characters of the literal `false`. -/
def falseLit : List Char := ['f', 'a', 'l', 's', 'e']

/-- JSON values; numbers are signed decimals `m · 10⁻ᵉ`. -/
inductive Json where
  | jnull
  | jbool (b : Bool)
  | jnum (m : ℤ) (e : ℕ)
  | jstr (s : List Char)
  | jarr (items : List Json)
  | jobj (entries : List (List Char × Json))

/-- The digit characters of `|m|`, left-padded with zeros so that at least
`e + 1` digits are available. -/
def printNumPadded (m : ℤ) (e : ℕ) : List Char :=
  let ds := natDigitChars m.natAbs
  if ds.length ≤ e then List.replicate (e + 1 - ds.length) (Char.ofNat 48) ++ ds else ds

/-- The unsigned digits of a decimal: integer digits, then — when `e > 0` —
a point followed by the last `e` digits. -/
def numBody (P : List Char) (e : ℕ) : List Char :=
  P.take (P.length - e) ++ (if e = 0 then [] else dotC :: P.drop (P.length - e))

/-- Print a decimal `m · 10⁻ᵉ` the way `JSON.stringify` prints it: sign,
integer digits, and — when `e > 0` — a point followed by `e` fraction
digits. -/
def printNum (m : ℤ) (e : ℕ) : List Char :=
  (if m < 0 then [minusC] else []) ++ numBody (printNumPadded m e) e

/-- Hexadecimal digit character (lowercase). -/
def hexDigitC (n : ℕ) : Char := if n < 10 then Char.ofNat (48 + n) else Char.ofNat (87 + n)

/-- The escape `JSON.stringify` applies to one string character. -/
def escapeChar (c : Char) : List Char :=
  if c = quoteC then [bslashC, quoteC]
  else if c = bslashC then [bslashC, bslashC]
  else if c = nlC then [bslashC, 'n']
  else if c = tabC then [bslashC, 't']
  else if c = crC then [bslashC, 'r']
  else if c = bspC then [bslashC, 'b']
  else if c = ffC then [bslashC, 'f']
  else if c.toNat < 32 then
    [bslashC, 'u', Char.ofNat 48, Char.ofNat 48, hexDigitC (c.toNat / 16), hexDigitC (c.toNat % 16)]
  else [c]

/-- Print a JSON string literal with escapes. -/
def printStr (s : List Char) : List Char :=
  quoteC :: (s.map escapeChar).flatten ++ [quoteC]

/-- A run of `n` spaces. -/
def spacesN (n : ℕ) : List Char := List.replicate n spaceC

mutual

/-- The text of `JSON.stringify(v, null, 2)` at current indentation `ind`:
atoms print inline; non-empty arrays and objects spread over lines, children
indented two further spaces, the closing bracket back at `ind`. -/
def printJson : ℕ → Json → List Char
  | _, .jnull => nullLit
  | _, .jbool true => trueLit
  | _, .jbool false => falseLit
  | _, .jnum m e => printNum m e
  | _, .jstr s => printStr s
  | _, .jarr [] => [lbrackC, rbrackC]
  | ind, .jarr (x :: xs) =>
    lbrackC :: nlC :: printItems (ind + 2) x xs ++ nlC :: spacesN ind ++ [rbrackC]
  | _, .jobj [] => [lcurlC, rcurlC]
  | ind, .jobj (x :: xs) =>
    lcurlC :: nlC :: printEntries (ind + 2) x xs ++ nlC :: spacesN ind ++ [rcurlC]
termination_by _ v => sizeOf v

/-- Comma/newline-separated array items, each on its own indented line. -/
def printItems : ℕ → Json → List Json → List Char
  | ind, x, [] => spacesN ind ++ printJson ind x
  | ind, x, y :: ys =>
    spacesN ind ++ printJson ind x ++ commaC :: nlC :: printItems ind y ys
termination_by _ x xs => sizeOf x + sizeOf xs

/-- Comma/newline-separated object entries `"key": value`. -/
def printEntries : ℕ → List Char × Json → List (List Char × Json) → List Char
  | ind, (k, v), [] => spacesN ind ++ printStr k ++ colonC :: spaceC :: printJson ind v
  | ind, (k, v), y :: ys =>
    spacesN ind ++ printStr k ++ colonC :: spaceC :: printJson ind v
      ++ commaC :: nlC :: printEntries ind y ys
termination_by _ e ys => sizeOf e + sizeOf ys

end

/-- JSON whitespace. -/
def isWsC (c : Char) : Bool := c == spaceC || c == nlC || c == tabC || c == crC

/-- Drop leading whitespace. -/
def skipWs (cs : List Char) : List Char := cs.dropWhile isWsC

/-- Decimal digit character test. -/
def isDigitC (c : Char) : Bool := decide (48 ≤ c.toNat) && decide (c.toNat ≤ 57)

/-- Value of a big-endian digit-character string. -/
def digitsToNat (cs : List Char) : ℕ := cs.foldl (fun a c => a * 10 + (c.toNat - 48)) 0

/-- Value of a (lowercase) hexadecimal digit character. -/
def hexValC (c : Char) : ℕ := if c.toNat ≤ 57 then c.toNat - 48 else c.toNat - 87

/-- Decode a single-character escape. -/
def unescape (e : Char) : Option Char :=
  if e = quoteC then some quoteC
  else if e = bslashC then some bslashC
  else if e = 'n' then some nlC
  else if e = 't' then some tabC
  else if e = 'r' then some crC
  else if e = 'b' then some bspC
  else if e = 'f' then some ffC
  else none

/-- Parse the body of a string literal after its opening quote, handling
escapes, up to and including the closing quote. -/
def parseStrBody : List Char → Option (List Char × List Char)
  | [] => none
  | c :: rest =>
    if c = quoteC then some ([], rest)
    else if c = bslashC then
      match rest with
      | [] => none
      | e :: rest2 =>
        if e = 'u' then
          match rest2 with
          | h1 :: h2 :: h3 :: h4 :: rest3 =>
            match parseStrBody rest3 with
            | some (s, r) =>
              some (Char.ofNat (((hexValC h1 * 16 + hexValC h2) * 16 + hexValC h3) * 16
                + hexValC h4) :: s, r)
            | none => none
          | _ => none
        else
          match unescape e with
          | some ec =>
            match parseStrBody rest2 with
            | some (s, r) => some (ec :: s, r)
            | none => none
          | none => none
    else
      match parseStrBody rest with
      | some (s, r) => some (c :: s, r)
      | none => none

/-- Parse the unsigned part of a number token: integer digits, optional
fraction; `neg` records the already-consumed sign. -/
def parseNumBody (neg : Bool) (cs1 : List Char) : Option (Json × List Char) :=
  let ds := cs1.takeWhile isDigitC
  let r1 := cs1.dropWhile isDigitC
  if ds.isEmpty then none
  else
    match r1 with
    | c :: r2 =>
      if c = dotC then
        let fs := r2.takeWhile isDigitC
        let r3 := r2.dropWhile isDigitC
        if fs.isEmpty then none
        else some (.jnum (if neg then -(digitsToNat (ds ++ fs) : ℤ)
                          else (digitsToNat (ds ++ fs) : ℤ)) fs.length, r3)
      else some (.jnum (if neg then -(digitsToNat ds : ℤ) else (digitsToNat ds : ℤ)) 0, r1)
    | [] => some (.jnum (if neg then -(digitsToNat ds : ℤ) else (digitsToNat ds : ℤ)) 0, [])

/-- Parse a JSON number token: optional sign, then the unsigned part. -/
def parseNum (cs : List Char) : Option (Json × List Char) :=
  if leadsWith [minusC] cs then parseNumBody true (cs.drop 1) else parseNumBody false cs

mutual

/-- Fueled recursive-descent JSON value parse, dispatching on the first
non-whitespace character. -/
def parseVal : ℕ → List Char → Option (Json × List Char)
  | 0, _ => none
  | fuel + 1, cs0 =>
    let cs := skipWs cs0
    match cs with
    | [] => none
    | c :: rest =>
      if c = quoteC then
        match parseStrBody rest with
        | some (s, r) => some (.jstr s, r)
        | none => none
      else if c = lbrackC then
        let cs1 := skipWs rest
        match cs1 with
        | d :: r1 =>
          if d = rbrackC then some (.jarr [], r1)
          else
            match parseItems fuel cs1 with
            | some (vs, r) => some (.jarr vs, r)
            | none => none
        | [] => none
      else if c = lcurlC then
        let cs1 := skipWs rest
        match cs1 with
        | d :: r1 =>
          if d = rcurlC then some (.jobj [], r1)
          else
            match parseEntries fuel cs1 with
            | some (es, r) => some (.jobj es, r)
            | none => none
        | [] => none
      else if c = 'n' then
        if leadsWith nullLit cs then some (.jnull, cs.drop 4) else none
      else if c = 't' then
        if leadsWith trueLit cs then some (.jbool true, cs.drop 4) else none
      else if c = 'f' then
        if leadsWith falseLit cs then some (.jbool false, cs.drop 5) else none
      else if isDigitC c || c = minusC then parseNum cs
      else none

/-- Parse one or more comma-separated items and the closing bracket. -/
def parseItems : ℕ → List Char → Option (List Json × List Char)
  | 0, _ => none
  | fuel + 1, cs =>
    match parseVal fuel cs with
    | none => none
    | some (v, r) =>
      match skipWs r with
      | c :: r2 =>
        if c = commaC then
          match parseItems fuel r2 with
          | some (vs, rr) => some (v :: vs, rr)
          | none => none
        else if c = rbrackC then some ([v], r2)
        else none
      | [] => none

/-- Parse one or more comma-separated `"key": value` entries and the closing
curly bracket. -/
def parseEntries : ℕ → List Char → Option (List (List Char × Json) × List Char)
  | 0, _ => none
  | fuel + 1, cs =>
    match skipWs cs with
    | c :: r0 =>
      if c = quoteC then
        match parseStrBody r0 with
        | some (k, r1) =>
          match skipWs r1 with
          | d :: r2 =>
            if d = colonC then
              match parseVal fuel r2 with
              | some (v, r3) =>
                match skipWs r3 with
                | e :: r4 =>
                  if e = commaC then
                    match parseEntries fuel r4 with
                    | some (es, rr) => some ((k, v) :: es, rr)
                    | none => none
                  else if e = rcurlC then some ([(k, v)], r4)
                  else none
                | [] => none
              | none => none
            else none
          | [] => none
        | none => none
      else none
    | [] => none

end

mutual

/-- Fuel sufficient for `parseVal` to reconstruct a value. -/
def fuelOf : Json → ℕ
  | .jarr (x :: xs) => 1 + itemsFuel x xs
  | .jobj (x :: xs) => 1 + entriesFuel x xs
  | _ => 1
termination_by v => sizeOf v

/-- Fuel sufficient for `parseItems` on a non-empty item list. -/
def itemsFuel : Json → List Json → ℕ
  | x, [] => 1 + fuelOf x
  | x, y :: ys => 1 + max (fuelOf x) (itemsFuel y ys)
termination_by x xs => sizeOf x + sizeOf xs

/-- Fuel sufficient for `parseEntries` on a non-empty entry list. -/
def entriesFuel : List Char × Json → List (List Char × Json) → ℕ
  | (k, v), [] => 1 + fuelOf v
  | (k, v), y :: ys => 1 + max (fuelOf v) (entriesFuel y ys)
termination_by e ys => sizeOf e + sizeOf ys

end

/-- The exact text exported by `downloadJSON`:
`JSON.stringify(result, null, 2)`. -/
def downloadContent (result : Json) : String := String.mk (printJson 0 result)

/-- Model of `JSON.parse` on a document: parse one value, allow trailing whitespace. -/
def jsonParseStr (s : String) : Option Json :=
  match parseVal s.length s.toList with
  | some (v, r) => if (skipWs r).isEmpty then some v else none
  | none => none

instance : IsTrans AccountOut (fun a b => b.suspicion_score ≤ a.suspicion_score) :=
  ⟨fun _ _ _ h1 h2 => le_trans h2 h1⟩

/-- The smallest member id of an emitted ring. -/
def smallestMemberE (r : RingE) : String :=
  match r.member_accounts with
  | [] => ""
  | m :: ms => ms.foldl min m

/-- A continuation is safe after a number token when it does not start with a
digit or a decimal point. -/
def NumSafe (X : List Char) : Prop :=
  ∀ c, X.head? = some c → (isDigitC c = false ∧ c ≠ dotC)

/-! ## Helper lemmas -/

theorem length_filter_partition {α : Type} (p : α → Bool) (l : List α) :
    (l.filter p).length + (l.filter (fun a => !p a)).length = l.length := by
  induction l with
  | nil => rfl
  | cons a l ih =>
    by_cases h : p a = true <;> simp [List.filter_cons, h] <;> omega

theorem leadsWith_iff (n l : List Char) : leadsWith n l = true ↔ ∃ t, l = n ++ t := by
  induction n generalizing l with
  | nil => simp [leadsWith]
  | cons a as ih =>
    cases l with
    | nil => simp [leadsWith]
    | cons b bs =>
      simp only [leadsWith, Bool.and_eq_true, beq_iff_eq, ih, List.cons_append, List.cons.injEq]
      constructor
      · rintro ⟨rfl, t, rfl⟩
        exact ⟨t, rfl, rfl⟩
      · rintro ⟨t, rfl, rfl⟩
        exact ⟨rfl, t, rfl⟩

theorem seqHasSub_iff (n l : List Char) :
    seqHasSub n l = true ↔ ∃ pre post, l = pre ++ n ++ post := by
  induction l with
  | nil =>
    simp only [seqHasSub, leadsWith_iff]
    constructor
    · rintro ⟨t, ht⟩
      exact ⟨[], t, ht⟩
    · rintro ⟨pre, post, h⟩
      have hp : pre = [] ∧ n ++ post = [] := by
        have := h.symm
        simpa [List.append_eq_nil] using this
      exact ⟨post, by simp [hp.1] at h ⊢; exact h⟩
  | cons c cs ih =>
    simp only [seqHasSub, Bool.or_eq_true, leadsWith_iff, ih]
    constructor
    · rintro (⟨t, ht⟩ | ⟨pre, post, hp⟩)
      · exact ⟨[], t, by simpa using ht⟩
      · exact ⟨c :: pre, post, by simp [hp]⟩
    · rintro ⟨pre, post, hp⟩
      cases pre with
      | nil => exact Or.inl ⟨post, by simpa using hp⟩
      | cons d ds =>
        right
        simp only [List.cons_append, List.cons.injEq] at hp
        exact ⟨ds, post, hp.2⟩

theorem strIncludes_iff (needle s : String) :
    strIncludes needle s = true ↔ SubStrOf needle s :=
  seqHasSub_iff needle.toList s.toList

/-! ## C4 — determinism of the pipeline -/

/-- C4: the pipeline is deterministic — for every input transaction table,
two runs produce identical reports apart from `processing_time_seconds`
(which is the only field built from the measured duration). -/
theorem pipeline_deterministic (txs : List Txn) (t1 t2 : ℚ) :
    stripTime (runPipeline txs t1) = stripTime (runPipeline txs t2)
    ∧ stripTime (runPipeline txs t1) = analyzeCore txs
    ∧ (runPipeline txs t1).processing_time_seconds = t1 := by
  exact ⟨rfl, rfl, rfl⟩

/-! ## C8 — GraphPanel edge-layer partition -/

/-- C8: the normal-edge and fraud-edge layers partition the payload's edge
list — an edge is in the fraud layer iff one of its endpoint ids belongs to
`suspicious_accounts`, in the normal layer iff neither does, and the two
layer sizes add up to the edge count. -/
theorem graphPanel_edge_partition (susp : List AccountOut) (edges : List EdgeOut) :
    (normalEdges susp edges).length + (fraudEdges susp edges).length = edges.length
    ∧ ∀ e : EdgeOut,
      (e ∈ fraudEdges susp edges ↔
        e ∈ edges ∧ ((∃ a ∈ susp, a.account_id = e.source) ∨ ∃ a ∈ susp, a.account_id = e.target))
      ∧ (e ∈ normalEdges susp edges ↔
        e ∈ edges ∧ ¬((∃ a ∈ susp, a.account_id = e.source) ∨ ∃ a ∈ susp, a.account_id = e.target)) := by
  have hb : ∀ x, suspHas susp x = true ↔ ∃ a ∈ susp, a.account_id = x := by
    intro x
    rw [suspHas, List.elem_iff, List.mem_map]
  have hb2 : ∀ x, suspHas susp x = false ↔ ¬ ∃ a ∈ susp, a.account_id = x := by
    intro x
    rw [← hb x]
    cases suspHas susp x <;> simp
  constructor
  · have h := length_filter_partition
      (fun e : EdgeOut => suspHas susp e.source || suspHas susp e.target) edges
    have hf : edges.filter
        (fun e : EdgeOut => !(suspHas susp e.source || suspHas susp e.target))
        = normalEdges susp edges := by
      unfold normalEdges
      apply List.filter_congr
      intro e _
      cases hs : suspHas susp e.source <;> cases ht : suspHas susp e.target <;> rfl
    rw [hf] at h
    unfold fraudEdges
    omega
  · intro e
    constructor
    · unfold fraudEdges
      rw [List.mem_filter]
      simp [hb]
    · unfold normalEdges
      rw [List.mem_filter]
      simp only [Bool.and_eq_true, Bool.not_eq_true']
      simp [hb2, not_or]

/-! ## C10 — `TAG_CLASS` style selection -/

/-- C10: `TAG_CLASS` returns the cycle style iff the tag contains `cycle`;
otherwise the smurfing style iff it contains `fan`, `velocity` or `smurf`;
otherwise the shell style — so the cycle-evidence tags `temporal_burst_72h`,
`temporal_burst_week` and `amount_decay` all get the shell style. -/
theorem tagClass_spec (p : String) :
    (tagClass p = .tagCycle ↔ SubStrOf "cycle" p)
    ∧ (tagClass p = .tagSmurf ↔
        (¬ SubStrOf "cycle" p ∧ (SubStrOf "fan" p ∨ SubStrOf "velocity" p ∨ SubStrOf "smurf" p)))
    ∧ (tagClass p = .tagShell ↔
        (¬ SubStrOf "cycle" p ∧ ¬ SubStrOf "fan" p ∧ ¬ SubStrOf "velocity" p ∧ ¬ SubStrOf "smurf" p))
    ∧ tagClass "temporal_burst_72h" = .tagShell
    ∧ tagClass "temporal_burst_week" = .tagShell
    ∧ tagClass "amount_decay" = .tagShell := by
  have hcyc := strIncludes_iff "cycle" p
  have hfan := strIncludes_iff "fan" p
  have hvel := strIncludes_iff "velocity" p
  have hsmu := strIncludes_iff "smurf" p
  refine ⟨?_, ?_, ?_, by decide, by decide, by decide⟩ <;>
  · unfold tagClass
    cases h1 : strIncludes "cycle" p <;> rw [h1] at hcyc <;>
      cases h2 : strIncludes "fan" p <;> rw [h2] at hfan <;>
      cases h3 : strIncludes "velocity" p <;> rw [h3] at hvel <;>
      cases h4 : strIncludes "smurf" p <;> rw [h4] at hsmu <;>
      simp_all

/-! ## C6 — AccountsTable rows -/

/-- C6: `AccountsTable` renders exactly the first `min (100, n)` accounts in
list order, nothing when the list is absent or empty, and — when the list is
sorted by non-increasing score — every rendered account scores at least as
high as every account beyond the first 100. -/
theorem accountsTable_spec (l : List AccountOut)
    (hsort : List.Chain' (fun a b => b.suspicion_score ≤ a.suspicion_score) l) :
    accountsTableRows none = []
    ∧ accountsTableRows (some []) = []
    ∧ accountsTableRows (some l) = l.take 100
    ∧ (accountsTableRows (some l)).length = min 100 l.length
    ∧ ∀ a ∈ accountsTableRows (some l), ∀ b ∈ l.drop 100, b.suspicion_score ≤ a.suspicion_score := by
  have hrows : accountsTableRows (some l) = l.take 100 := by
    unfold accountsTableRows
    by_cases h : l.length = 0
    · rw [List.length_eq_zero] at h
      simp [h]
    · simp [h]
  refine ⟨rfl, rfl, hrows, ?_, ?_⟩
  · rw [hrows, List.length_take]
  · have hp : List.Pairwise (fun a b => b.suspicion_score ≤ a.suspicion_score) l :=
      List.chain'_iff_pairwise.mp hsort
    rw [← List.take_append_drop 100 l] at hp
    have := (List.pairwise_append.mp hp).2.2
    intro a ha b hb
    rw [hrows] at ha
    exact this a ha b hb

/-- C6 witness: a three-account sorted list — the theorem applied at it. -/
theorem accountsTable_spec_witness :
    List.Chain' (fun a b => b.suspicion_score ≤ a.suspicion_score)
      [⟨"A", 90, some "R001", ["cycle_length_3"]⟩,
       ⟨"B", 80, none, ["fan_in_contributor"]⟩,
       (⟨"C", 80, none, []⟩ : AccountOut)]
    ∧ (accountsTableRows none = []
      ∧ accountsTableRows (some []) = []
      ∧ accountsTableRows (some [⟨"A", 90, some "R001", ["cycle_length_3"]⟩,
          ⟨"B", 80, none, ["fan_in_contributor"]⟩, (⟨"C", 80, none, []⟩ : AccountOut)])
        = [⟨"A", 90, some "R001", ["cycle_length_3"]⟩,
          ⟨"B", 80, none, ["fan_in_contributor"]⟩, (⟨"C", 80, none, []⟩ : AccountOut)].take 100
      ∧ (accountsTableRows (some [⟨"A", 90, some "R001", ["cycle_length_3"]⟩,
          ⟨"B", 80, none, ["fan_in_contributor"]⟩, (⟨"C", 80, none, []⟩ : AccountOut)])).length
        = min 100 ([⟨"A", 90, some "R001", ["cycle_length_3"]⟩,
          ⟨"B", 80, none, ["fan_in_contributor"]⟩, (⟨"C", 80, none, []⟩ : AccountOut)] :
            List AccountOut).length
      ∧ ∀ a ∈ accountsTableRows (some [⟨"A", 90, some "R001", ["cycle_length_3"]⟩,
          ⟨"B", 80, none, ["fan_in_contributor"]⟩, (⟨"C", 80, none, []⟩ : AccountOut)]),
        ∀ b ∈ ([⟨"A", 90, some "R001", ["cycle_length_3"]⟩,
          ⟨"B", 80, none, ["fan_in_contributor"]⟩, (⟨"C", 80, none, []⟩ : AccountOut)] :
            List AccountOut).drop 100,
          b.suspicion_score ≤ a.suspicion_score) :=
  have hch : List.Chain' (fun a b : AccountOut => b.suspicion_score ≤ a.suspicion_score)
      [⟨"A", 90, some "R001", ["cycle_length_3"]⟩,
       ⟨"B", 80, none, ["fan_in_contributor"]⟩,
       (⟨"C", 80, none, []⟩ : AccountOut)] :=
    List.chain'_cons.mpr ⟨by norm_num,
      List.chain'_cons.mpr ⟨by norm_num, List.chain'_singleton _⟩⟩
  ⟨hch, accountsTable_spec _ hch⟩

/-! ## C7 — StatsStrip cards -/

/-- C7: `StatsStrip` builds exactly four cards whose values and sub-captions
come from the seven contract fields — and from nothing else: two summaries
agreeing on those fields render identically. -/
theorem statsStrip_spec (s1 s2 : SummaryOut)
    (h : s1.total_accounts_analyzed = s2.total_accounts_analyzed
      ∧ s1.total_transactions = s2.total_transactions
      ∧ s1.suspicious_accounts_flagged = s2.suspicious_accounts_flagged
      ∧ s1.fraud_rings_detected = s2.fraud_rings_detected
      ∧ s1.cycles_found = s2.cycles_found
      ∧ s1.smurfing_hubs_found = s2.smurfing_hubs_found
      ∧ s1.processing_time_seconds = s2.processing_time_seconds) :
    statsStrip s1 = statsStrip s2
    ∧ (statsStrip s1).length = 4
    ∧ (statsStrip s1).map (·.value)
      = [toLocaleStr s1.total_accounts_analyzed,
         natStr s1.suspicious_accounts_flagged,
         natStr s1.fraud_rings_detected,
         timeStr s1.processing_time_seconds ++ "s"]
    ∧ (statsStrip s1).map (·.sub)
      = [natStr s1.total_transactions ++ " transactions",
         "Flagged by algorithms",
         natStr s1.cycles_found ++ " cycles · " ++ natStr s1.smurfing_hubs_found
           ++ " smurfing hubs",
         "Graph traversal complete"] := by
  obtain ⟨h1, h2, h3, h4, h5, h6, h7⟩ := h
  refine ⟨?_, rfl, rfl, rfl⟩
  unfold statsStrip
  rw [h1, h2, h3, h4, h5, h6, h7]

/-- C7 witness: two summaries equal on the seven contract fields but with
different extra fields — the theorem applied at them. -/
theorem statsStrip_spec_witness :
    (let s1 : SummaryOut := ⟨120, 500, 7, 3, 2, 1, 4 / 10, []⟩
     let s2 : SummaryOut := ⟨120, 500, 7, 3, 2, 1, 4 / 10, [("debug", "yes")]⟩
     statsStrip s1 = statsStrip s2
     ∧ (statsStrip s1).length = 4
     ∧ (statsStrip s1).map (·.value)
       = [toLocaleStr s1.total_accounts_analyzed,
          natStr s1.suspicious_accounts_flagged,
          natStr s1.fraud_rings_detected,
          timeStr s1.processing_time_seconds ++ "s"]
     ∧ (statsStrip s1).map (·.sub)
       = [natStr s1.total_transactions ++ " transactions",
          "Flagged by algorithms",
          natStr s1.cycles_found ++ " cycles · " ++ natStr s1.smurfing_hubs_found
            ++ " smurfing hubs",
          "Graph traversal complete"]) :=
  statsStrip_spec ⟨120, 500, 7, 3, 2, 1, 4 / 10, []⟩ ⟨120, 500, 7, 3, 2, 1, 4 / 10, [("debug", "yes")]⟩
    ⟨rfl, rfl, rfl, rfl, rfl, rfl, rfl⟩

/-! ## C5 — RingPanel display order -/

/-- C5: on a rings list whose `risk_score` is non-increasing in list order —
which the emitted report guarantees — `RingPanel`'s stable descending sort
returns the list unchanged, so the displayed order is the report's
`ring_id`-ascending order. -/
theorem ringPanel_sorted_eq (rings : List RingOut)
    (h : List.Chain' ringPanelLe rings) :
    ringPanelSorted rings = rings :=
  List.Sorted.insertionSort_eq (List.chain'_iff_pairwise.mp h)

/-- C5 witness: a concrete report-ordered rings list — the theorem applied
at it. -/
theorem ringPanel_sorted_eq_witness :
    List.Chain' ringPanelLe
      [⟨"R001", "cycle", ["a", "b", "c"], 95⟩,
       ⟨"R002", "smurfing", ["h"], 80⟩,
       (⟨"R003", "shell_network", ["x", "y", "z"], 60⟩ : RingOut)]
    ∧ ringPanelSorted
        [⟨"R001", "cycle", ["a", "b", "c"], 95⟩,
         ⟨"R002", "smurfing", ["h"], 80⟩,
         (⟨"R003", "shell_network", ["x", "y", "z"], 60⟩ : RingOut)]
      = [⟨"R001", "cycle", ["a", "b", "c"], 95⟩,
         ⟨"R002", "smurfing", ["h"], 80⟩,
         (⟨"R003", "shell_network", ["x", "y", "z"], 60⟩ : RingOut)] :=
  have hch : List.Chain' ringPanelLe
      [⟨"R001", "cycle", ["a", "b", "c"], 95⟩,
       ⟨"R002", "smurfing", ["h"], 80⟩,
       (⟨"R003", "shell_network", ["x", "y", "z"], 60⟩ : RingOut)] :=
    List.chain'_cons.mpr ⟨by norm_num [ringPanelLe],
      List.chain'_cons.mpr ⟨by norm_num [ringPanelLe], List.chain'_singleton _⟩⟩
  ⟨hch, ringPanel_sorted_eq _ hch⟩

/-! ## C1 — score bounds -/

theorem clampScore_mem (x : ℚ) : 0 ≤ clampScore x ∧ clampScore x ≤ 100 := by
  unfold clampScore
  constructor
  · exact le_max_left 0 _
  · exact max_le (by norm_num) (min_le_left _ _)

theorem emitScore_mem {x : ℚ} (h0 : 0 ≤ x) (h1 : x ≤ 100) :
    0 ≤ emitScore x ∧ emitScore x ≤ 100 := by
  unfold emitScore
  rw [round_eq]
  constructor
  · rw [Int.le_floor]
    push_cast
    linarith
  · have : x + 1 / 2 ≤ (201 : ℚ) / 2 := by linarith
    calc ⌊x + 1 / 2⌋ ≤ ⌊(201 : ℚ) / 2⌋ := Int.floor_le_floor this
    _ = 100 := by norm_num

theorem foldl_contrib_mem (l : List (String × ℚ)) (s : ℚ) (h0 : 0 ≤ s) (h1 : s ≤ 100) :
    0 ≤ l.foldl (fun s c => applyContribution s c.2) s
    ∧ l.foldl (fun s c => applyContribution s c.2) s ≤ 100 := by
  induction l generalizing s with
  | nil => exact ⟨h0, h1⟩
  | cons c cs ih =>
    simp only [List.foldl_cons]
    exact ih _ (clampScore_mem _).1 (clampScore_mem _).2

theorem accountScore_mem (txs : List Txn) (a : String) :
    0 ≤ accountScore txs a ∧ accountScore txs a ≤ 100 :=
  foldl_contrib_mem _ 0 le_rfl (by norm_num)

/-- C1: the diminishing-returns update, clamped to `[0, 100]`, preserves
`0 ≤ s ≤ 100` for every score in range and non-negative contribution; every
per-account score of the pipeline lies in `[0, 100]` and its emitted rounding
is an integer in `[0, 100]`. -/
theorem score_update_bounds (s c : ℚ) (hs0 : 0 ≤ s) (hs1 : s ≤ 100) (hc : 0 ≤ c) :
    (0 ≤ applyContribution s c ∧ applyContribution s c ≤ 100)
    ∧ (0 ≤ emitScore (applyContribution s c) ∧ emitScore (applyContribution s c) ≤ 100)
    ∧ s ≤ applyContribution s c
    ∧ (∀ txs a, 0 ≤ accountScore txs a ∧ accountScore txs a ≤ 100)
    ∧ (∀ txs a, 0 ≤ emitScore (accountScore txs a) ∧ emitScore (accountScore txs a) ≤ 100) := by
  refine ⟨clampScore_mem _,
    emitScore_mem (clampScore_mem _).1 (clampScore_mem _).2, ?_,
    accountScore_mem,
    fun txs a => emitScore_mem (accountScore_mem txs a).1 (accountScore_mem txs a).2⟩
  unfold applyContribution clampScore
  have h1 : (0 : ℚ) ≤ 1 - s / 120 := by linarith
  have h2 : 0 ≤ c * (1 - s / 120) := mul_nonneg hc h1
  exact le_trans (le_min hs1 (by linarith)) (le_max_right _ _)

/-- C1 witness: the theorem applied at score 50 and contribution 30. -/
theorem score_update_bounds_witness :
    ((0 : ℚ) ≤ 50 ∧ (50 : ℚ) ≤ 100 ∧ (0 : ℚ) ≤ 30)
    ∧ ((0 ≤ applyContribution 50 30 ∧ applyContribution 50 30 ≤ 100)
      ∧ (0 ≤ emitScore (applyContribution 50 30) ∧ emitScore (applyContribution 50 30) ≤ 100)
      ∧ (50 : ℚ) ≤ applyContribution 50 30
      ∧ (∀ txs a, 0 ≤ accountScore txs a ∧ accountScore txs a ≤ 100)
      ∧ (∀ txs a, 0 ≤ emitScore (accountScore txs a) ∧ emitScore (accountScore txs a) ≤ 100)) :=
  ⟨⟨by norm_num, by norm_num, by norm_num⟩,
    score_update_bounds 50 30 (by norm_num) (by norm_num) (by norm_num)⟩

/-! ## C2 — dense ring identifiers, descending risk -/

theorem assignIds_map_id (n : ℕ) (rs : List RingC) :
    (assignIds n rs).map (·.ring_id) = (List.range' n rs.length).map ringIdStr := by
  induction rs generalizing n with
  | nil => rfl
  | cons r rs ih => simp [assignIds, mkRingE, List.range', ih]

theorem mem_assignIds {x : RingE} :
    ∀ {n : ℕ} {rs : List RingC}, x ∈ assignIds n rs → ∃ i r, r ∈ rs ∧ x = mkRingE i r := by
  intro n rs
  induction rs generalizing n with
  | nil => intro h; cases h
  | cons r rs ih =>
    intro h
    rcases h with _ | ⟨_, h⟩
    · exact ⟨n, r, List.mem_cons_self r rs, rfl⟩
    · obtain ⟨i, r', hm, he⟩ := ih h
      exact ⟨i, r', List.mem_cons_of_mem _ hm, he⟩

theorem assignIds_pairwise {R : RingC → RingC → Prop} {S : RingE → RingE → Prop}
    (hRS : ∀ i j a b, R a b → S (mkRingE i a) (mkRingE j b)) :
    ∀ (n : ℕ) (rs : List RingC), rs.Pairwise R → (assignIds n rs).Pairwise S := by
  intro n rs
  induction rs generalizing n with
  | nil => intro _; exact List.Pairwise.nil
  | cons r rs ih =>
    intro hp
    rcases List.pairwise_cons.mp hp with ⟨hr, htl⟩
    refine List.pairwise_cons.mpr ⟨?_, ih (n + 1) htl⟩
    intro x hx
    obtain ⟨i, r', hm, rfl⟩ := mem_assignIds hx
    exact hRS n i r r' (hr r' hm)

/-- C2: renumbered rings carry exactly the dense identifier sequence
`R001..R{N}` in list order, the list is ordered by descending risk score with
ties by ascending smallest member id, hence risk is non-increasing along the
emitted `fraud_rings` list, which the pipeline emits in exactly this order. -/
theorem ring_renumber_spec (rs : List RingC) :
    (renumberRings rs).map (·.ring_id) = (List.range' 1 rs.length).map ringIdStr
    ∧ List.Pairwise (fun a b : RingE =>
        b.risk_score < a.risk_score
        ∨ (a.risk_score = b.risk_score ∧ smallestMemberE a ≤ smallestMemberE b))
        (renumberRings rs)
    ∧ List.Chain' (fun a b : RingE => b.risk_score ≤ a.risk_score) (renumberRings rs)
    ∧ ∀ txs, (analyzeCore txs).fraud_rings = renumberRings (dedupRings (candidateRings txs)) := by
  have hsorted : List.Pairwise ringLe (List.insertionSort ringLe rs) :=
    List.sorted_insertionSort ringLe rs
  have hpair : List.Pairwise (fun a b : RingE =>
      b.risk_score < a.risk_score
      ∨ (a.risk_score = b.risk_score ∧ smallestMemberE a ≤ smallestMemberE b))
      (renumberRings rs) := by
    unfold renumberRings
    refine assignIds_pairwise ?_ 1 _ hsorted
    intro i j a b hab
    exact hab
  refine ⟨?_, hpair, ?_, fun txs => rfl⟩
  · unfold renumberRings
    rw [assignIds_map_id, List.length_insertionSort]
  · refine List.Pairwise.chain' (hpair.imp ?_)
    intro a b hab
    rcases hab with h | ⟨h, _⟩
    · exact le_of_lt h
    · exact le_of_eq h.symm

/-! ## C3 — dedup overlap bound -/

theorem overlapQ_comm (a b : RingC) : overlapQ a b = overlapQ b a := by
  unfold overlapQ interCard
  rw [Finset.inter_comm, min_comm]

theorem beats_total {x y : ℕ × RingC} (hne : x.1 ≠ y.1) : beats x y ∨ beats y x := by
  unfold beats
  rcases lt_trichotomy x.2.risk y.2.risk with h | h | h
  · right
    left
    exact h
  · rcases lt_trichotomy (mcard x.2) (mcard y.2) with hm | hm | hm
    · right
      right
      exact ⟨h.symm, Or.inl hm⟩
    · rcases Nat.lt_or_ge x.1 y.1 with hi | hi
      · left
        right
        exact ⟨h, Or.inr ⟨hm, hi⟩⟩
      · have hyx : y.1 < x.1 := lt_of_le_of_ne hi (Ne.symm hne)
        right
        right
        exact ⟨h.symm, Or.inr ⟨hm.symm, hyx⟩⟩
    · left
      right
      exact ⟨h, Or.inl hm⟩
  · left
    left
    exact h

/-- C3: any two distinct surviving rings of the same pattern type overlap by
at most 0.85; and whenever two candidates of the same pattern type overlap
strictly above 0.85, the one beaten on score (ties: smaller member count,
then later construction index) is dropped.  `dedupRings` emits exactly the
survivors. -/
theorem dedup_overlap_spec (cs : List RingC) :
    (∀ x ∈ survivorsIdx cs, ∀ y ∈ survivorsIdx cs, x.1 ≠ y.1 → x.2.pattern = y.2.pattern →
      overlapQ x.2 y.2 ≤ 85 / 100)
    ∧ (∀ x ∈ cs.enum, ∀ y ∈ cs.enum, x.1 ≠ y.1 → x.2.pattern = y.2.pattern →
      85 / 100 < overlapQ x.2 y.2 → beats x y → y ∉ survivorsIdx cs)
    ∧ dedupRings cs = (survivorsIdx cs).map (·.2) := by
  refine ⟨?_, ?_, rfl⟩
  · intro x hx y hy hne hpat
    by_contra hle
    push_neg at hle
    have hxe : x ∈ cs.enum := (List.mem_filter.mp hx).1
    have hye : y ∈ cs.enum := (List.mem_filter.mp hy).1
    rcases beats_total hne with hb | hb
    · have hdrop : droppedBy cs.enum y := ⟨x, hxe, hne, hpat, hle, hb⟩
      have h2 := (List.mem_filter.mp hy).2
      rw [Bool.not_eq_true', decide_eq_false_iff_not] at h2
      exact h2 hdrop
    · have hdrop : droppedBy cs.enum x :=
        ⟨y, hye, Ne.symm hne, hpat.symm, by rwa [overlapQ_comm], hb⟩
      have h2 := (List.mem_filter.mp hx).2
      rw [Bool.not_eq_true', decide_eq_false_iff_not] at h2
      exact h2 hdrop
  · intro x hx y hy hne hpat hover hb hmem
    have hdrop : droppedBy cs.enum y := ⟨x, hx, hne, hpat, hover, hb⟩
    have h2 := (List.mem_filter.mp hmem).2
    rw [Bool.not_eq_true', decide_eq_false_iff_not] at h2
    exact h2 hdrop

/-- C3 witness: two fully-overlapping cycle candidates — the theorem's drop
rule applied at them: the lower-scoring one is not among the survivors. -/
theorem dedup_overlap_spec_witness :
    ((0, (⟨.cycle, ["a", "b", "c"], 90⟩ : RingC))
        ∈ ([⟨.cycle, ["a", "b", "c"], 90⟩, ⟨.cycle, ["a", "b", "c"], 80⟩] : List RingC).enum
      ∧ (1, (⟨.cycle, ["a", "b", "c"], 80⟩ : RingC))
        ∈ ([⟨.cycle, ["a", "b", "c"], 90⟩, ⟨.cycle, ["a", "b", "c"], 80⟩] : List RingC).enum
      ∧ (85 / 100 : ℚ) < overlapQ ⟨.cycle, ["a", "b", "c"], 90⟩ ⟨.cycle, ["a", "b", "c"], 80⟩
      ∧ beats (0, ⟨.cycle, ["a", "b", "c"], 90⟩) (1, ⟨.cycle, ["a", "b", "c"], 80⟩))
    ∧ (1, (⟨.cycle, ["a", "b", "c"], 80⟩ : RingC))
        ∉ survivorsIdx [⟨.cycle, ["a", "b", "c"], 90⟩, ⟨.cycle, ["a", "b", "c"], 80⟩] := by
  have h1 : (0, (⟨.cycle, ["a", "b", "c"], 90⟩ : RingC))
      ∈ ([⟨.cycle, ["a", "b", "c"], 90⟩, ⟨.cycle, ["a", "b", "c"], 80⟩] : List RingC).enum := by
    decide
  have h2 : (1, (⟨.cycle, ["a", "b", "c"], 80⟩ : RingC))
      ∈ ([⟨.cycle, ["a", "b", "c"], 90⟩, ⟨.cycle, ["a", "b", "c"], 80⟩] : List RingC).enum := by
    decide
  have hi : interCard (⟨.cycle, ["a", "b", "c"], 90⟩ : RingC) ⟨.cycle, ["a", "b", "c"], 80⟩ = 3 := by
    decide
  have hm1 : mcard (⟨.cycle, ["a", "b", "c"], 90⟩ : RingC) = 3 := by decide
  have hm2 : mcard (⟨.cycle, ["a", "b", "c"], 80⟩ : RingC) = 3 := by decide
  have hov : (85 / 100 : ℚ) < overlapQ ⟨.cycle, ["a", "b", "c"], 90⟩ ⟨.cycle, ["a", "b", "c"], 80⟩ := by
    unfold overlapQ
    rw [hi, hm1, hm2]
    norm_num
  have hb : beats (0, ⟨.cycle, ["a", "b", "c"], 90⟩) (1, ⟨.cycle, ["a", "b", "c"], 80⟩) := by
    decide
  exact ⟨⟨h1, h2, hov, hb⟩,
    (dedup_overlap_spec _).2.1 _ h1 _ h2 (by decide) rfl hov hb⟩

/-! ## C9 — serialisation round trip: whitespace lemmas -/

theorem skipWs_cons_not {c : Char} (h : isWsC c = false) (X : List Char) :
    skipWs (c :: X) = c :: X := by
  simp [skipWs, List.dropWhile_cons, h]

theorem skipWs_cons_ws {c : Char} (h : isWsC c = true) (X : List Char) :
    skipWs (c :: X) = skipWs X := by
  simp [skipWs, List.dropWhile_cons, h]

theorem skipWs_nl (X : List Char) : skipWs (nlC :: X) = skipWs X :=
  skipWs_cons_ws (by decide) X

theorem skipWs_spaces (k : ℕ) (X : List Char) : skipWs (spacesN k ++ X) = skipWs X := by
  induction k with
  | zero => rfl
  | succ k ih =>
    simpa [spacesN, List.replicate_succ, skipWs_cons_ws (show isWsC spaceC = true by decide)]
      using ih

theorem skipWs_idem (X : List Char) : skipWs (skipWs X) = skipWs X :=
  List.dropWhile_idempotent _ _

theorem parseVal_congr (f : ℕ) {X Y : List Char} (h : skipWs X = skipWs Y) :
    parseVal f X = parseVal f Y := by
  cases f with
  | zero => rfl
  | succ f =>
    simp only [parseVal]
    rw [h]

theorem parseItems_congr (f : ℕ) {X Y : List Char} (h : skipWs X = skipWs Y) :
    parseItems f X = parseItems f Y := by
  cases f with
  | zero => rfl
  | succ f =>
    simp only [parseItems]
    rw [parseVal_congr f h]

theorem parseEntries_congr (f : ℕ) {X Y : List Char} (h : skipWs X = skipWs Y) :
    parseEntries f X = parseEntries f Y := by
  cases f with
  | zero => rfl
  | succ f =>
    simp only [parseEntries]
    rw [h]

/-! ## C9 — digit and head-character lemmas -/

theorem digitChar_digit {d : ℕ} (h : d < 10) : isDigitC (Nat.digitChar d) = true := by
  have : ∀ k < 10, isDigitC (Nat.digitChar k) = true := by decide
  exact this d h

theorem natDigitChars_digits (n : ℕ) : ∀ c ∈ natDigitChars n, isDigitC c = true := by
  intro c hc
  unfold natDigitChars at hc
  by_cases h : n = 0
  · simp [h] at hc
    subst hc
    decide
  · simp only [h, if_false, List.mem_reverse, List.mem_map] at hc
    obtain ⟨d, hd, rfl⟩ := hc
    exact digitChar_digit (Nat.digits_lt_base (by norm_num) hd)

theorem natDigitChars_ne_nil (n : ℕ) : natDigitChars n ≠ [] := by
  unfold natDigitChars
  by_cases h : n = 0
  · simp [h]
  · simp [h, Nat.digits_ne_nil_iff_ne_zero.mpr h]

theorem numHead_props {c : Char} (h : c = minusC ∨ isDigitC c = true) :
    isWsC c = false ∧ c ≠ rbrackC ∧ c ≠ rcurlC ∧ c ≠ quoteC ∧ c ≠ lbrackC ∧ c ≠ lcurlC
    ∧ c ≠ 'n' ∧ c ≠ 't' ∧ c ≠ 'f' ∧ (isDigitC c || c = minusC) = true := by
  rcases h with rfl | h
  · exact ⟨by decide, by decide, by decide, by decide, by decide, by decide,
      by decide, by decide, by decide, by decide⟩
  · have hn : 48 ≤ c.toNat ∧ c.toNat ≤ 57 := by
      unfold isDigitC at h
      rw [Bool.and_eq_true, decide_eq_true_eq, decide_eq_true_eq] at h
      exact h
    have hne : ∀ k : ℕ, k < 48 ∨ 57 < k → c.toNat ≠ k := by
      intro k hk
      omega
    refine ⟨?_, ?_, ?_, ?_, ?_, ?_, ?_, ?_, ?_, by simp [h]⟩
    · unfold isWsC
      have h1 : (c == spaceC) = false := by
        rw [beq_eq_false_iff_ne]
        rintro rfl
        exact hne 32 (by norm_num) rfl
      have h2 : (c == nlC) = false := by
        rw [beq_eq_false_iff_ne]
        rintro rfl
        exact hne 10 (by norm_num) rfl
      have h3 : (c == tabC) = false := by
        rw [beq_eq_false_iff_ne]
        rintro rfl
        exact hne 9 (by norm_num) rfl
      have h4 : (c == crC) = false := by
        rw [beq_eq_false_iff_ne]
        rintro rfl
        exact hne 13 (by norm_num) rfl
      rw [h1, h2, h3, h4]
      rfl
    · rintro rfl
      exact hne 93 (by norm_num) rfl
    · rintro rfl
      exact hne 125 (by norm_num) rfl
    · rintro rfl
      exact hne 34 (by norm_num) rfl
    · rintro rfl
      exact hne 91 (by norm_num) rfl
    · rintro rfl
      exact hne 123 (by norm_num) rfl
    · rintro rfl
      exact hne 110 (by norm_num) rfl
    · rintro rfl
      exact hne 116 (by norm_num) rfl
    · rintro rfl
      exact hne 102 (by norm_num) rfl

theorem printNumPadded_digits (m : ℤ) (e : ℕ) :
    ∀ c ∈ printNumPadded m e, isDigitC c = true := by
  intro c hc
  unfold printNumPadded at hc
  by_cases hle : (natDigitChars m.natAbs).length ≤ e
  · simp only [hle, if_true, List.mem_append, List.mem_replicate] at hc
    rcases hc with ⟨_, rfl⟩ | hc
    · decide
    · exact natDigitChars_digits _ c hc
  · simp only [hle, if_false] at hc
    exact natDigitChars_digits _ c hc

theorem printNumPadded_len (m : ℤ) (e : ℕ) : e + 1 ≤ (printNumPadded m e).length := by
  have hnil := natDigitChars_ne_nil m.natAbs
  have hpos : 0 < (natDigitChars m.natAbs).length := List.length_pos.mpr hnil
  unfold printNumPadded
  by_cases hle : (natDigitChars m.natAbs).length ≤ e
  · simp only [hle, if_true, List.length_append, List.length_replicate]
    omega
  · simp only [hle, if_false]
    omega

theorem numBody_shape (P : List Char) (e : ℕ)
    (hdig : ∀ c ∈ P, isDigitC c = true) (hlen : e + 1 ≤ P.length) :
    ∃ c t, numBody P e = c :: t ∧ isDigitC c = true := by
  have hnn : P.take (P.length - e) ≠ [] := by
    have hl : (P.take (P.length - e)).length = P.length - e := by
      rw [List.length_take]
      omega
    intro hcon
    rw [hcon] at hl
    simp only [List.length_nil] at hl
    omega
  obtain ⟨c, t, hct⟩ := List.exists_cons_of_ne_nil hnn
  refine ⟨c, t ++ (if e = 0 then [] else dotC :: P.drop (P.length - e)), ?_, ?_⟩
  · unfold numBody
    rw [hct, List.cons_append]
  · have hmem : c ∈ P.take (P.length - e) := by
      rw [hct]
      exact List.mem_cons_self _ _
    exact hdig c (List.mem_of_mem_take hmem)

theorem printNum_shape (m : ℤ) (e : ℕ) :
    ∃ c t, printNum m e = c :: t ∧ (c = minusC ∨ isDigitC c = true) := by
  unfold printNum
  by_cases hm : m < 0
  · refine ⟨minusC, numBody (printNumPadded m e) e, ?_, Or.inl rfl⟩
    rw [if_pos hm, List.cons_append, List.nil_append]
  · obtain ⟨c, t, hct, hc⟩ :=
      numBody_shape (printNumPadded m e) e (printNumPadded_digits m e) (printNumPadded_len m e)
    refine ⟨c, t, ?_, Or.inr hc⟩
    rw [if_neg hm, List.nil_append, hct]

theorem printJson_head (ind : ℕ) (v : Json) :
    ∃ c t, printJson ind v = c :: t ∧ isWsC c = false ∧ c ≠ rbrackC ∧ c ≠ rcurlC := by
  cases v with
  | jnull => exact ⟨'n', ['u', 'l', 'l'], by rw [printJson]; rfl, by decide, by decide, by decide⟩
  | jbool b =>
    cases b with
    | true => exact ⟨'t', ['r', 'u', 'e'], by rw [printJson]; rfl, by decide, by decide, by decide⟩
    | false =>
      exact ⟨'f', ['a', 'l', 's', 'e'], by rw [printJson]; rfl, by decide, by decide, by decide⟩
  | jnum m e =>
    obtain ⟨c, t, hct, hc⟩ := printNum_shape m e
    obtain ⟨h1, h2, h3, _⟩ := numHead_props hc
    exact ⟨c, t, by rw [printJson, hct], h1, h2, h3⟩
  | jstr s =>
    exact ⟨quoteC, (s.map escapeChar).flatten ++ [quoteC], by rw [printJson]; rfl,
      by decide, by decide, by decide⟩
  | jarr items =>
    cases items with
    | nil => exact ⟨lbrackC, [rbrackC], by rw [printJson], by decide, by decide, by decide⟩
    | cons x xs =>
      exact ⟨lbrackC, nlC :: printItems (ind + 2) x xs ++ nlC :: spacesN ind ++ [rbrackC],
        by rw [printJson]; rfl, by decide, by decide, by decide⟩
  | jobj entries =>
    cases entries with
    | nil => exact ⟨lcurlC, [rcurlC], by rw [printJson], by decide, by decide, by decide⟩
    | cons x xs =>
      exact ⟨lcurlC, nlC :: printEntries (ind + 2) x xs ++ nlC :: spacesN ind ++ [rcurlC],
        by rw [printJson]; rfl, by decide, by decide, by decide⟩

/-! ## C9 — string body round trip -/

theorem hexVal_hexDigit {k : ℕ} (h : k < 16) : hexValC (hexDigitC k) = k := by
  have : ∀ j < 16, hexValC (hexDigitC j) = j := by decide
  exact this k h

theorem psb_quote (X : List Char) : parseStrBody (quoteC :: X) = some ([], X) := by
  conv_lhs => rw [parseStrBody.eq_def]
  simp

theorem psb_escape {e c' : Char} (he : unescape e = some c') (hu : e ≠ 'u') (r : List Char) :
    parseStrBody (bslashC :: e :: r)
      = match parseStrBody r with
        | some (s, x) => some (c' :: s, x)
        | none => none := by
  conv_lhs => rw [parseStrBody.eq_def]
  simp [hu, he, show bslashC ≠ quoteC from by decide]

theorem psb_hex (h1 h2 h3 h4 : Char) (r : List Char) :
    parseStrBody (bslashC :: 'u' :: h1 :: h2 :: h3 :: h4 :: r)
      = match parseStrBody r with
        | some (s, x) =>
          some (Char.ofNat (((hexValC h1 * 16 + hexValC h2) * 16 + hexValC h3) * 16
            + hexValC h4) :: s, x)
        | none => none := by
  conv_lhs => rw [parseStrBody.eq_def]
  simp [show bslashC ≠ quoteC from by decide]

theorem psb_plain {c : Char} (hq : c ≠ quoteC) (hb : c ≠ bslashC) (r : List Char) :
    parseStrBody (c :: r)
      = match parseStrBody r with
        | some (s, x) => some (c :: s, x)
        | none => none := by
  conv_lhs => rw [parseStrBody.eq_def]
  simp [hq, hb]

theorem parseStrBody_round (s X : List Char) :
    parseStrBody ((s.map escapeChar).flatten ++ quoteC :: X) = some (s, X) := by
  induction s with
  | nil =>
    simp only [List.map_nil, List.flatten_nil, List.nil_append]
    exact psb_quote X
  | cons c s ih =>
    rw [List.map_cons, List.flatten_cons, List.append_assoc]
    by_cases h1 : c = quoteC
    · subst h1
      rw [show escapeChar quoteC = [bslashC, quoteC] from by decide]
      simp only [List.cons_append, List.nil_append]
      rw [psb_escape (show unescape quoteC = some quoteC from by decide) (by decide), ih]
    · by_cases h2 : c = bslashC
      · subst h2
        rw [show escapeChar bslashC = [bslashC, bslashC] from by decide]
        simp only [List.cons_append, List.nil_append]
        rw [psb_escape (show unescape bslashC = some bslashC from by decide) (by decide), ih]
      · by_cases h3 : c = nlC
        · subst h3
          rw [show escapeChar nlC = [bslashC, 'n'] from by decide]
          simp only [List.cons_append, List.nil_append]
          rw [psb_escape (show unescape 'n' = some nlC from by decide) (by decide), ih]
        · by_cases h4 : c = tabC
          · subst h4
            rw [show escapeChar tabC = [bslashC, 't'] from by decide]
            simp only [List.cons_append, List.nil_append]
            rw [psb_escape (show unescape 't' = some tabC from by decide) (by decide), ih]
          · by_cases h5 : c = crC
            · subst h5
              rw [show escapeChar crC = [bslashC, 'r'] from by decide]
              simp only [List.cons_append, List.nil_append]
              rw [psb_escape (show unescape 'r' = some crC from by decide) (by decide), ih]
            · by_cases h6 : c = bspC
              · subst h6
                rw [show escapeChar bspC = [bslashC, 'b'] from by decide]
                simp only [List.cons_append, List.nil_append]
                rw [psb_escape (show unescape 'b' = some bspC from by decide) (by decide), ih]
              · by_cases h7 : c = ffC
                · subst h7
                  rw [show escapeChar ffC = [bslashC, 'f'] from by decide]
                  simp only [List.cons_append, List.nil_append]
                  rw [psb_escape (show unescape 'f' = some ffC from by decide) (by decide), ih]
                · by_cases h8 : c.toNat < 32
                  · rw [show escapeChar c
                        = [bslashC, 'u', Char.ofNat 48, Char.ofNat 48,
                           hexDigitC (c.toNat / 16), hexDigitC (c.toNat % 16)] from by
                      rw [escapeChar, if_neg h1, if_neg h2, if_neg h3, if_neg h4, if_neg h5,
                        if_neg h6, if_neg h7, if_pos h8]]
                    simp only [List.cons_append, List.nil_append]
                    rw [psb_hex, ih]
                    have hdiv : c.toNat / 16 < 16 := by omega
                    have hmod : c.toNat % 16 < 16 := by omega
                    rw [hexVal_hexDigit hdiv, hexVal_hexDigit hmod,
                      show hexValC (Char.ofNat 48) = 0 from by decide]
                    norm_num
                    have harg : c.toNat / 16 * 16 + c.toNat % 16 = c.toNat := by omega
                    rw [harg, Char.ofNat_toNat]
                  · rw [show escapeChar c = [c] from by
                      rw [escapeChar, if_neg h1, if_neg h2, if_neg h3, if_neg h4, if_neg h5,
                        if_neg h6, if_neg h7, if_neg h8]]
                    simp only [List.cons_append, List.nil_append]
                    rw [psb_plain h1 h2, ih]

/-! ## C9 — number round trip -/

theorem digitsToNat_zeros (k : ℕ) (cs : List Char) :
    digitsToNat (List.replicate k (Char.ofNat 48) ++ cs) = digitsToNat cs := by
  induction k with
  | zero => rfl
  | succ k ih =>
    simp only [List.replicate_succ, List.cons_append, digitsToNat, List.foldl_cons]
    have h48 : (Char.ofNat 48).toNat - 48 = 0 := by decide
    rw [h48]
    exact ih

theorem digitChar_toNat {d : ℕ} (h : d < 10) : (Nat.digitChar d).toNat - 48 = d := by
  have : ∀ j < 10, (Nat.digitChar j).toNat - 48 = j := by decide
  exact this d h

theorem foldl_digitList (l : List ℕ) (h : ∀ d ∈ l, d < 10) :
    digitsToNat ((l.map Nat.digitChar).reverse) = Nat.ofDigits 10 l := by
  induction l with
  | nil => simp [digitsToNat, Nat.ofDigits_nil]
  | cons d l ih =>
    simp only [List.map_cons, List.reverse_cons]
    unfold digitsToNat
    rw [List.foldl_append, List.foldl_cons, List.foldl_nil]
    have ihv := ih (fun d' hd' => h d' (List.mem_cons_of_mem _ hd'))
    unfold digitsToNat at ihv
    rw [ihv, Nat.ofDigits_cons, digitChar_toNat (h d (List.mem_cons_self _ _))]
    ring

theorem digitsToNat_natDigitChars (n : ℕ) : digitsToNat (natDigitChars n) = n := by
  unfold natDigitChars
  by_cases h : n = 0
  · subst h
    decide
  · rw [if_neg h,
      foldl_digitList _ (fun d hd => Nat.digits_lt_base (by norm_num) hd),
      Nat.ofDigits_digits]

theorem span_digits (p : Char → Bool) (ds rest : List Char)
    (hds : ∀ c ∈ ds, p c = true)
    (hrest : ∀ c, rest.head? = some c → p c = false) :
    (ds ++ rest).takeWhile p = ds ∧ (ds ++ rest).dropWhile p = rest := by
  induction ds with
  | nil =>
    simp only [List.nil_append]
    cases rest with
    | nil => exact ⟨rfl, rfl⟩
    | cons c cs =>
      have hc := hrest c rfl
      simp [List.takeWhile_cons, List.dropWhile_cons, hc]
  | cons d ds ih =>
    have hd := hds d (List.mem_cons_self _ _)
    have ih' := ih (fun c hc => hds c (List.mem_cons_of_mem _ hc))
    simp [List.takeWhile_cons, List.dropWhile_cons, hd, ih'.1, ih'.2]

theorem printNumPadded_val (m : ℤ) (e : ℕ) :
    digitsToNat (printNumPadded m e) = m.natAbs := by
  unfold printNumPadded
  by_cases hle : (natDigitChars m.natAbs).length ≤ e
  · rw [if_pos hle, digitsToNat_zeros, digitsToNat_natDigitChars]
  · rw [if_neg hle, digitsToNat_natDigitChars]

theorem parseNumBody_round (neg : Bool) (P : List Char) (e : ℕ) (X : List Char)
    (hX : NumSafe X) (hdig : ∀ c ∈ P, isDigitC c = true) (hlen : e + 1 ≤ P.length) :
    parseNumBody neg (numBody P e ++ X)
      = some (.jnum (if neg then -(digitsToNat P : ℤ) else (digitsToNat P : ℤ)) e, X) := by
  unfold numBody parseNumBody
  by_cases he : e = 0
  · subst he
    rw [if_pos rfl, List.append_nil, Nat.sub_zero, List.take_length]
    obtain ⟨ht, hd⟩ := span_digits isDigitC P X hdig (fun c hc => (hX c hc).1)
    rw [ht, hd]
    have hPne : P ≠ [] := by
      intro h
      rw [h] at hlen
      simp at hlen
    rw [if_neg (by simp [hPne])]
    cases X with
    | nil => rfl
    | cons c r2 =>
      simp only []
      rw [if_neg (hX c rfl).2]
  · rw [if_neg he, List.append_assoc, List.cons_append]
    have hdig1 : ∀ c ∈ P.take (P.length - e), isDigitC c = true :=
      fun c hc => hdig c (List.mem_of_mem_take hc)
    obtain ⟨ht, hd⟩ := span_digits isDigitC (P.take (P.length - e))
      (dotC :: (P.drop (P.length - e) ++ X)) hdig1
      (fun c hc => by
        simp only [List.head?_cons, Option.some.injEq] at hc
        subst hc
        decide)
    rw [ht, hd]
    have htne : P.take (P.length - e) ≠ [] := by
      have hl : (P.take (P.length - e)).length = P.length - e := by
        rw [List.length_take]
        omega
      intro hcon
      rw [hcon] at hl
      simp only [List.length_nil] at hl
      omega
    rw [if_neg (by simp [htne])]
    simp only []
    rw [if_pos trivial]
    have hdig2 : ∀ c ∈ P.drop (P.length - e), isDigitC c = true :=
      fun c hc => hdig c (List.mem_of_mem_drop hc)
    obtain ⟨ht2, hd2⟩ := span_digits isDigitC (P.drop (P.length - e)) X hdig2
      (fun c hc => (hX c hc).1)
    rw [ht2, hd2]
    have hfne : P.drop (P.length - e) ≠ [] := by
      have hl : (P.drop (P.length - e)).length = e := by
        rw [List.length_drop]
        omega
      intro hcon
      rw [hcon] at hl
      simp only [List.length_nil] at hl
      omega
    rw [if_neg (by simp [hfne]), List.take_append_drop]
    have hflen : (P.drop (P.length - e)).length = e := by
      rw [List.length_drop]
      omega
    rw [hflen]

theorem parseNum_round (m : ℤ) (e : ℕ) (X : List Char) (hX : NumSafe X) :
    parseNum (printNum m e ++ X) = some (.jnum m e, X) := by
  unfold printNum parseNum
  by_cases hm : m < 0
  · rw [if_pos hm, List.cons_append, List.nil_append, List.cons_append]
    rw [show leadsWith [minusC]
        (minusC :: (numBody (printNumPadded m e) e ++ X)) = true from by simp [leadsWith]]
    rw [if_pos rfl, List.drop_succ_cons, List.drop_zero]
    rw [parseNumBody_round true _ e X hX (printNumPadded_digits m e) (printNumPadded_len m e)]
    rw [if_pos rfl, printNumPadded_val]
    have habs : (m.natAbs : ℤ) = -m := Int.ofNat_natAbs_of_nonpos (le_of_lt hm)
    rw [habs, neg_neg]
  · rw [if_neg hm, List.nil_append]
    obtain ⟨c, t, hct, hc⟩ :=
      numBody_shape (printNumPadded m e) e (printNumPadded_digits m e) (printNumPadded_len m e)
    have hcm : (minusC == c) = false := by
      rw [beq_eq_false_iff_ne]
      rintro rfl
      unfold isDigitC at hc
      rw [Bool.and_eq_true, decide_eq_true_eq, decide_eq_true_eq] at hc
      have : minusC.toNat = 45 := by decide
      omega
    rw [show leadsWith [minusC] (numBody (printNumPadded m e) e ++ X) = false from by
      rw [hct, List.cons_append]
      simp [leadsWith, hcm]]
    rw [if_neg (by simp)]
    rw [parseNumBody_round false _ e X hX (printNumPadded_digits m e) (printNumPadded_len m e)]
    rw [if_neg (by simp), printNumPadded_val]
    rw [Int.natAbs_of_nonneg (not_lt.mp hm)]

/-! ## C9 — fuel bounds -/

theorem one_le_fuelOf (v : Json) : 1 ≤ fuelOf v := by
  cases v with
  | jnull => simp [fuelOf]
  | jbool b => simp [fuelOf]
  | jnum m e => simp [fuelOf]
  | jstr s => simp [fuelOf]
  | jarr items =>
    cases items with
    | nil => simp [fuelOf]
    | cons x xs => simp [fuelOf]
  | jobj entries =>
    cases entries with
    | nil => simp [fuelOf]
    | cons x xs => simp [fuelOf]

mutual

theorem fuelOf_le_print (ind : ℕ) (v : Json) : fuelOf v ≤ (printJson ind v).length := by
  cases v with
  | jnull => simp [fuelOf, printJson, nullLit]
  | jbool b => cases b <;> simp [fuelOf, printJson, trueLit, falseLit]
  | jnum m e =>
    obtain ⟨c, t, hct, _⟩ := printNum_shape m e
    simp [fuelOf, printJson, hct]
  | jstr s => simp [fuelOf, printJson, printStr]
  | jarr items =>
    cases items with
    | nil => simp [fuelOf, printJson]
    | cons x xs =>
      have h := itemsFuel_le_print (ind + 2) (by omega) x xs
      simp only [fuelOf, printJson, List.length_cons, List.length_append, spacesN,
        List.length_replicate]
      omega
  | jobj entries =>
    cases entries with
    | nil => simp [fuelOf, printJson]
    | cons x xs =>
      have h := entriesFuel_le_print (ind + 2) (by omega) x xs
      simp only [fuelOf, printJson, List.length_cons, List.length_append, spacesN,
        List.length_replicate]
      omega
termination_by sizeOf v

theorem itemsFuel_le_print (ind : ℕ) (hind : 1 ≤ ind) (x : Json) (xs : List Json) :
    itemsFuel x xs ≤ (printItems ind x xs).length := by
  cases xs with
  | nil =>
    have h := fuelOf_le_print ind x
    simp only [itemsFuel, printItems, List.length_append, spacesN, List.length_replicate]
    omega
  | cons y ys =>
    have h1 := fuelOf_le_print ind x
    have h2 := itemsFuel_le_print ind hind y ys
    rw [itemsFuel, printItems]
    simp only [List.length_append, List.length_cons, spacesN, List.length_replicate]
    rcases Nat.le_total (fuelOf x) (itemsFuel y ys) with hmx | hmx
    · rw [Nat.max_eq_right hmx]
      omega
    · rw [Nat.max_eq_left hmx]
      omega
termination_by sizeOf x + sizeOf xs

theorem entriesFuel_le_print (ind : ℕ) (hind : 1 ≤ ind) (x : List Char × Json)
    (ys : List (List Char × Json)) :
    entriesFuel x ys ≤ (printEntries ind x ys).length := by
  obtain ⟨k, v⟩ := x
  cases ys with
  | nil =>
    have h := fuelOf_le_print ind v
    rw [entriesFuel, printEntries]
    simp only [List.length_append, List.length_cons, spacesN, List.length_replicate, printStr]
    omega
  | cons y ys =>
    have h1 := fuelOf_le_print ind v
    have h2 := entriesFuel_le_print ind hind y ys
    rw [entriesFuel, printEntries]
    simp only [List.length_append, List.length_cons, spacesN, List.length_replicate, printStr]
    rcases Nat.le_total (fuelOf v) (entriesFuel y ys) with hmx | hmx
    · rw [Nat.max_eq_right hmx]
      omega
    · rw [Nat.max_eq_left hmx]
      omega
termination_by sizeOf x + sizeOf ys

end

/-! ## C9 — heads of printed fragments -/

theorem numSafe_nil : NumSafe [] := by
  intro c h
  simp at h

theorem numSafe_cons {c : Char} (h1 : isDigitC c = false) (h2 : c ≠ dotC) (X : List Char) :
    NumSafe (c :: X) := by
  intro d hd
  simp only [List.head?_cons, Option.some.injEq] at hd
  subst hd
  exact ⟨h1, h2⟩

theorem skipWs_printItems_head (ind : ℕ) (x : Json) (xs : List Json) (Y : List Char) :
    ∃ c t, skipWs (printItems ind x xs ++ Y) = c :: t
      ∧ isWsC c = false ∧ c ≠ rbrackC ∧ c ≠ rcurlC := by
  obtain ⟨c, t, hct, hw, hrb, hrc⟩ := printJson_head ind x
  cases xs with
  | nil =>
    refine ⟨c, t ++ Y, ?_, hw, hrb, hrc⟩
    rw [printItems, List.append_assoc, skipWs_spaces, hct, List.cons_append,
      skipWs_cons_not hw]
  | cons y ys =>
    refine ⟨c, t ++ (commaC :: nlC :: printItems ind y ys ++ Y), ?_, hw, hrb, hrc⟩
    rw [printItems, List.append_assoc, List.append_assoc, skipWs_spaces, hct,
      List.cons_append, skipWs_cons_not hw]

theorem skipWs_printEntries_head (ind : ℕ) (x : List Char × Json)
    (ys : List (List Char × Json)) (Y : List Char) :
    ∃ t, skipWs (printEntries ind x ys ++ Y) = quoteC :: t := by
  obtain ⟨k, v⟩ := x
  cases ys with
  | nil =>
    refine ⟨(k.map escapeChar).flatten ++ [quoteC]
      ++ (colonC :: spaceC :: printJson ind v ++ Y), ?_⟩
    rw [printEntries, List.append_assoc, List.append_assoc, skipWs_spaces]
    rw [show printStr k = quoteC :: ((k.map escapeChar).flatten ++ [quoteC]) from rfl]
    rw [List.cons_append, skipWs_cons_not (by decide), List.append_assoc]
  | cons y ys =>
    refine ⟨(k.map escapeChar).flatten ++ [quoteC]
      ++ ((colonC :: spaceC :: printJson ind v ++ commaC :: nlC :: printEntries ind y ys)
        ++ Y), ?_⟩
    rw [printEntries]
    rw [show printStr k = quoteC :: ((k.map escapeChar).flatten ++ [quoteC]) from rfl]
    simp only [List.append_assoc, List.cons_append]
    rw [skipWs_spaces, skipWs_cons_not (by decide)]

/-! ## C9 — the parser reconstructs every printed value -/

theorem parse_print_round (fuel : ℕ) :
    (∀ v ind rest, fuelOf v ≤ fuel → NumSafe rest →
      parseVal fuel (printJson ind v ++ rest) = some (v, rest))
    ∧ (∀ x xs ind k rest, itemsFuel x xs ≤ fuel →
      parseItems fuel (printItems ind x xs ++ (nlC :: (spacesN k ++ rbrackC :: rest)))
        = some (x :: xs, rest))
    ∧ (∀ x ys ind k rest, entriesFuel x ys ≤ fuel →
      parseEntries fuel (printEntries ind x ys ++ (nlC :: (spacesN k ++ rcurlC :: rest)))
        = some (x :: ys, rest)) := by
  induction fuel with
  | zero =>
    refine ⟨?_, ?_, ?_⟩
    · intro v ind rest hf _
      have := one_le_fuelOf v
      omega
    · intro x xs ind k rest hf
      cases xs <;> rw [itemsFuel] at hf <;> omega
    · intro x ys ind k rest hf
      obtain ⟨kk, vv⟩ := x
      cases ys <;> rw [entriesFuel] at hf <;> omega
  | succ f ih =>
    obtain ⟨ihV, ihI, ihE⟩ := ih
    refine ⟨?_, ?_, ?_⟩
    · -- parseVal
      intro v ind rest hf hrest
      cases v with
      | jnull =>
        rw [printJson]
        rw [show nullLit ++ rest = 'n' :: 'u' :: 'l' :: 'l' :: rest from rfl]
        rw [parseVal, skipWs_cons_not (by decide)]
        simp only []
        rw [if_neg (by decide : ('n' : Char) ≠ quoteC),
          if_neg (by decide : ('n' : Char) ≠ lbrackC),
          if_neg (by decide : ('n' : Char) ≠ lcurlC),
          if_pos trivial]
        rw [show leadsWith nullLit ('n' :: 'u' :: 'l' :: 'l' :: rest) = true from by
          simp [nullLit, leadsWith]]
        rw [if_pos rfl]
        rfl
      | jbool b =>
        cases b with
        | true =>
          rw [printJson]
          rw [show trueLit ++ rest = 't' :: 'r' :: 'u' :: 'e' :: rest from rfl]
          rw [parseVal, skipWs_cons_not (by decide)]
          simp only []
          rw [if_neg (by decide : ('t' : Char) ≠ quoteC),
            if_neg (by decide : ('t' : Char) ≠ lbrackC),
            if_neg (by decide : ('t' : Char) ≠ lcurlC),
            if_neg (by decide : ('t' : Char) ≠ 'n'),
            if_pos trivial]
          rw [show leadsWith trueLit ('t' :: 'r' :: 'u' :: 'e' :: rest) = true from by
            simp [trueLit, leadsWith]]
          rw [if_pos rfl]
          rfl
        | false =>
          rw [printJson]
          rw [show falseLit ++ rest = 'f' :: 'a' :: 'l' :: 's' :: 'e' :: rest from rfl]
          rw [parseVal, skipWs_cons_not (by decide)]
          simp only []
          rw [if_neg (by decide : ('f' : Char) ≠ quoteC),
            if_neg (by decide : ('f' : Char) ≠ lbrackC),
            if_neg (by decide : ('f' : Char) ≠ lcurlC),
            if_neg (by decide : ('f' : Char) ≠ 'n'),
            if_neg (by decide : ('f' : Char) ≠ 't'),
            if_pos trivial]
          rw [show leadsWith falseLit ('f' :: 'a' :: 'l' :: 's' :: 'e' :: rest) = true from by
            simp [falseLit, leadsWith]]
          rw [if_pos rfl]
          rfl
      | jnum m e =>
        rw [printJson]
        obtain ⟨c, t, hct, hc⟩ := printNum_shape m e
        obtain ⟨hw, _, _, hq, hlb, hlc, hn, ht', hf', hnum⟩ := numHead_props hc
        rw [hct, List.cons_append, parseVal, skipWs_cons_not hw]
        simp only []
        rw [if_neg hq, if_neg hlb, if_neg hlc, if_neg hn, if_neg ht', if_neg hf',
          if_pos hnum]
        rw [← List.cons_append, ← hct]
        exact parseNum_round m e rest hrest
      | jstr s =>
        rw [printJson]
        rw [show printStr s = quoteC :: ((s.map escapeChar).flatten ++ [quoteC]) from rfl]
        rw [List.cons_append, parseVal, skipWs_cons_not (by decide)]
        simp only []
        rw [if_pos trivial]
        rw [List.append_assoc, List.singleton_append, parseStrBody_round]
      | jarr items =>
        cases items with
        | nil =>
          rw [printJson]
          rw [show ([lbrackC, rbrackC] : List Char) ++ rest = lbrackC :: rbrackC :: rest
            from rfl]
          rw [parseVal, skipWs_cons_not (by decide)]
          simp only []
          rw [if_neg (by decide : lbrackC ≠ quoteC), if_pos trivial,
            skipWs_cons_not (by decide)]
          simp only []
          rw [if_pos trivial]
        | cons x xs =>
          rw [printJson]
          simp only [List.append_assoc, List.cons_append, List.singleton_append, List.nil_append]
          rw [parseVal, skipWs_cons_not (by decide)]
          simp only []
          rw [if_neg (by decide : lbrackC ≠ quoteC), if_pos trivial, skipWs_nl]
          obtain ⟨d, r1, hd1, hdw, hdrb, hdrc⟩ :=
            skipWs_printItems_head (ind + 2) x xs (nlC :: (spacesN ind ++ rbrackC :: rest))
          rw [hd1]
          simp only []
          rw [if_neg hdrb]
          have hcongr : parseItems f (d :: r1)
              = parseItems f (printItems (ind + 2) x xs
                  ++ (nlC :: (spacesN ind ++ rbrackC :: rest))) :=
            parseItems_congr f (by rw [← hd1, skipWs_idem])
          rw [hcongr]
          rw [fuelOf] at hf
          rw [ihI x xs (ind + 2) ind rest (by omega)]
      | jobj entries =>
        cases entries with
        | nil =>
          rw [printJson]
          rw [show ([lcurlC, rcurlC] : List Char) ++ rest = lcurlC :: rcurlC :: rest
            from rfl]
          rw [parseVal, skipWs_cons_not (by decide)]
          simp only []
          rw [if_neg (by decide : lcurlC ≠ quoteC), if_neg (by decide : lcurlC ≠ lbrackC),
            if_pos trivial, skipWs_cons_not (by decide)]
          simp only []
          rw [if_pos trivial]
        | cons x xs =>
          rw [printJson]
          simp only [List.append_assoc, List.cons_append, List.singleton_append, List.nil_append]
          rw [parseVal, skipWs_cons_not (by decide)]
          simp only []
          rw [if_neg (by decide : lcurlC ≠ quoteC), if_neg (by decide : lcurlC ≠ lbrackC),
            if_pos trivial, skipWs_nl]
          obtain ⟨t, hd1⟩ :=
            skipWs_printEntries_head (ind + 2) x xs (nlC :: (spacesN ind ++ rcurlC :: rest))
          rw [hd1]
          simp only []
          rw [if_neg (by decide : quoteC ≠ rcurlC)]
          have hcongr : parseEntries f (quoteC :: t)
              = parseEntries f (printEntries (ind + 2) x xs
                  ++ (nlC :: (spacesN ind ++ rcurlC :: rest))) :=
            parseEntries_congr f (by rw [← hd1, skipWs_idem])
          rw [hcongr]
          rw [fuelOf] at hf
          rw [ihE x xs (ind + 2) ind rest (by omega)]
    · -- parseItems
      intro x xs ind k rest hf
      cases xs with
      | nil =>
        rw [printItems, parseItems]
        simp only [List.append_assoc, List.cons_append, List.singleton_append, List.nil_append]
        rw [parseVal_congr f (skipWs_spaces ind _)]
        rw [itemsFuel] at hf
        rw [ihV x ind (nlC :: (spacesN k ++ rbrackC :: rest)) (by omega)
          (numSafe_cons (by decide) (by decide) _)]
        simp only []
        rw [skipWs_nl, skipWs_spaces, skipWs_cons_not (by decide)]
        simp only []
        rw [if_neg (by decide : rbrackC ≠ commaC), if_pos trivial]
      | cons y ys =>
        rw [printItems, parseItems]
        simp only [List.append_assoc, List.cons_append, List.singleton_append, List.nil_append]
        rw [parseVal_congr f (skipWs_spaces ind _)]
        rw [itemsFuel] at hf
        rw [ihV x ind
          (commaC :: (nlC :: (printItems ind y ys
            ++ (nlC :: (spacesN k ++ rbrackC :: rest)))))
          (by omega) (numSafe_cons (by decide) (by decide) _)]
        simp only []
        rw [skipWs_cons_not (by decide)]
        simp only []
        rw [if_pos trivial]
        have hcongr : parseItems f (nlC :: (printItems ind y ys
            ++ (nlC :: (spacesN k ++ rbrackC :: rest))))
            = parseItems f (printItems ind y ys
                ++ (nlC :: (spacesN k ++ rbrackC :: rest))) :=
          parseItems_congr f (skipWs_nl _)
        rw [hcongr]
        rw [ihI y ys ind k rest (by omega)]
    · -- parseEntries
      intro x ys ind k rest hf
      obtain ⟨kk, vv⟩ := x
      cases ys with
      | nil =>
        rw [printEntries, parseEntries]
        simp only [List.append_assoc, List.cons_append, List.singleton_append, List.nil_append]
        rw [skipWs_spaces]
        rw [show printStr kk = quoteC :: ((kk.map escapeChar).flatten ++ [quoteC]) from rfl]
        rw [List.cons_append, skipWs_cons_not (by decide)]
        simp only []
        rw [if_pos trivial]
        rw [List.append_assoc, List.singleton_append, parseStrBody_round]
        simp only []
        rw [skipWs_cons_not (by decide)]
        simp only []
        rw [if_pos trivial]
        have hcongr : parseVal f (spaceC :: (printJson ind vv
            ++ (nlC :: (spacesN k ++ rcurlC :: rest))))
            = parseVal f (printJson ind vv ++ (nlC :: (spacesN k ++ rcurlC :: rest))) :=
          parseVal_congr f (skipWs_cons_ws (by decide) _)
        rw [hcongr]
        rw [entriesFuel] at hf
        rw [ihV vv ind (nlC :: (spacesN k ++ rcurlC :: rest)) (by omega)
          (numSafe_cons (by decide) (by decide) _)]
        simp only []
        rw [skipWs_nl, skipWs_spaces, skipWs_cons_not (by decide)]
        simp only []
        rw [if_neg (by decide : rcurlC ≠ commaC), if_pos trivial]
      | cons y ys =>
        rw [printEntries, parseEntries]
        simp only [List.append_assoc, List.cons_append, List.singleton_append, List.nil_append]
        rw [skipWs_spaces]
        rw [show printStr kk = quoteC :: ((kk.map escapeChar).flatten ++ [quoteC]) from rfl]
        rw [List.cons_append, skipWs_cons_not (by decide)]
        simp only []
        rw [if_pos trivial]
        rw [List.append_assoc, List.singleton_append, parseStrBody_round]
        simp only []
        rw [skipWs_cons_not (by decide)]
        simp only []
        rw [if_pos trivial]
        have hcongr : parseVal f (spaceC :: (printJson ind vv
            ++ (commaC :: (nlC :: (printEntries ind y ys
              ++ (nlC :: (spacesN k ++ rcurlC :: rest)))))))
            = parseVal f (printJson ind vv
                ++ (commaC :: (nlC :: (printEntries ind y ys
                  ++ (nlC :: (spacesN k ++ rcurlC :: rest)))))) :=
          parseVal_congr f (skipWs_cons_ws (by decide) _)
        rw [hcongr]
        rw [entriesFuel] at hf
        rw [ihV vv ind _ (by omega) (numSafe_cons (by decide) (by decide) _)]
        simp only []
        rw [skipWs_cons_not (by decide)]
        simp only []
        rw [if_pos trivial]
        have hcongr2 : parseEntries f (nlC :: (printEntries ind y ys
            ++ (nlC :: (spacesN k ++ rcurlC :: rest))))
            = parseEntries f (printEntries ind y ys
                ++ (nlC :: (spacesN k ++ rcurlC :: rest))) :=
          parseEntries_congr f (skipWs_nl _)
        rw [hcongr2]
        rw [ihE y ys ind k rest (by omega)]

/-- C9: `downloadJSON` exports exactly `JSON.stringify(result, null, 2)` of
the report, and parsing the exported text yields a value structurally equal
to the report — serialisation then parsing is the identity. -/
theorem download_roundtrip (v : Json) :
    downloadContent v = String.mk (printJson 0 v)
    ∧ jsonParseStr (downloadContent v) = some v := by
  refine ⟨rfl, ?_⟩
  unfold jsonParseStr downloadContent
  have hlist : (String.mk (printJson 0 v)).toList = printJson 0 v := rfl
  have hlen : (String.mk (printJson 0 v)).length = (printJson 0 v).length := rfl
  rw [hlist, hlen]
  have hf : fuelOf v ≤ (printJson 0 v).length := fuelOf_le_print 0 v
  have h := (parse_print_round ((printJson 0 v).length)).1 v 0 [] hf numSafe_nil
  rw [List.append_nil] at h
  rw [h]
  rfl
